import Mathlib

/-!
# Zero-knowledge proofs `prm` and `mulg`

A shallow embedding of `pkg/zk/prm/prm.go` and `pkg/zk/mulg/mulg.go`.

* `*big.Int` values are `Int`; every handle is taken to be non-nil.
* A run-time panic of the Go code (nil dereference, index out of range,
  `Mod` by zero) is the result `none`.
* Random samples are inputs of `NewProof`.
* Packages that the two files import but that are not among the sources are
  either parameters (`Env`) or definitions modelled from the specification;
  each says so in its doc comment.
-/

/-! # Part I: definitions -/

/-! ## `math/big` -/

namespace big

/-- The method `z.Mod(x, m)`: the Euclidean modulus, `0 ≤ z < |m|`; a zero
modulus is a run-time panic. -/
def Mod (x m : Int) : Option Int :=
  if m = 0 then none else some (x % m)

/-- The method `z.ModInverse(g, n)` for `g` coprime to `n`: the inverse of `g`
in `ℤ/nℤ`, in the range `0 ≤ z < |n|`, read off the extended Euclidean
algorithm. -/
def ModInverse (g n : Int) : Int :=
  Int.gcdA g n % n

/-- The method `z.Exp(x, y, m)`: the value the receiver holds after the call,
where `z` is the value it held before. As documented by `math/big`:
`x**y mod |m|`; for `m = 0` the result is `x**y`, or `1` when `y ≤ 0`; for
`m ≠ 0`, `y < 0` and `x` not coprime to `m` the receiver is left unchanged (and
`nil` is returned). For a negative exponent the magnitude is the power `r` of
the modular inverse; as for every exponent, the sign is then set from the sign
of `x` and the parity of `|y|`, and a negative result is made positive by
subtracting its magnitude from `|m|`: for `x < 0`, `|y|` odd and `r ≠ 0` the
value is `|m| - r`. -/
def Exp (z x y m : Int) : Int :=
  if m = 0 then
    if y ≤ 0 then 1 else x ^ y.toNat
  else if 0 ≤ y then x ^ y.toNat % m
  else if Int.gcd x m = 1 then
    let r := ModInverse x m ^ (-y).toNat % m
    if x < 0 ∧ (-y).toNat % 2 = 1 ∧ r ≠ 0 then |m| - r else r
  else z

end big

/-! ## The package `prm` and its collaborators -/

namespace pedersen

/-- The type `pedersen.Parameters`: modulus `N` and the two bases `S`, `T`. -/
structure Parameters where
  N : Int
  S : Int
  T : Int
  deriving DecidableEq

end pedersen

namespace arith

/-- Modelled from the spec: `arith.IsValidModN` is not among the sources. The
spec asks that every entry be "a valid nonzero-ish residue mod `N`" and lists
"out-of-range value" and "non-residue element" as the failures: every entry
lies in `[1, N-1]` and is coprime to `N`. -/
def IsValidModN (N : Int) (ints : List Int) : Bool :=
  ints.all fun i => decide (0 < i) && decide (i < N) && decide (Int.gcd i N = 1)

end arith

namespace zkprm

/-- What `prm.go` takes from packages that are not among the sources:
`params.StatParam`, the transcript `hash.Hash` with `WriteAny` and `ReadBytes`,
and `pedersen.Parameters.Validate`.

* `WriteAny h vs` is the state after `h.WriteAny(vs...)`.
* `ReadBytes h n i` is the byte that `h.ReadBytes(buf)` stores at `buf[i]` for a
  buffer of `n` bytes (taken modulo 256 where it is used).
* `Validate p` is `true` when `p.Validate()` returns a `nil` error. -/
structure Env where
  StatParam : Nat
  Hash : Type
  WriteAny : Hash → List Int → Hash
  ReadBytes : Hash → Nat → Nat → Nat
  Validate : pedersen.Parameters → Bool

structure Public where
  Pedersen : pedersen.Parameters
  deriving DecidableEq

structure Private where
  Lambda : Int
  Phi : Int
  deriving DecidableEq

/-- The proof `{A *[]*big.Int; Z *[]*big.Int}`: a `nil` vector is `none`. -/
structure Proof where
  A : Option (List Int)
  Z : Option (List Int)
  deriving DecidableEq

/-- The method `Proof.IsValid`. `*p.A` is dereferenced first; `*p.Z` only when
the length of `A` is `StatParam`. -/
def IsValid (env : Env) (p : Proof) (pub : Public) : Option Bool :=
  match p.A with
  | none => none
  | some A =>
    if A.length ≠ env.StatParam then some false
    else
      match p.Z with
      | none => none
      | some Z =>
        if Z.length ≠ env.StatParam then some false
        else if !arith.IsValidModN pub.Pedersen.N A then some false
        else if !arith.IsValidModN pub.Pedersen.N Z then some false
        else some true

/-- The buffer `tmpBytes` after `hash.ReadBytes(tmpBytes)`: `n` bytes. -/
def readBuffer (env : Env) (h : env.Hash) (n : Nat) : List Nat :=
  (List.range n).map fun i => env.ReadBytes h n i % 256

/-- The loop `for i := range out { out[i] = (tmpBytes[i] & 1) == 1 }`, over the
indices `is` of `out`. -/
def lowBits (tmpBytes : List Nat) : List Nat → Option (List Bool)
  | [] => some []
  | i :: is =>
    match tmpBytes[i]? with
    | none => none
    | some b =>
      match lowBits tmpBytes is with
      | none => none
      | some out => some ((b &&& 1 == 1) :: out)

/-- The hash state after `WriteAny(N, S, T)` and one `WriteAny(a)` per entry of
`A`, in this order. -/
def absorb (env : Env) (hash : env.Hash) (pub : Public) (A : List Int) : env.Hash :=
  A.foldl (fun h a => env.WriteAny h [a])
    (env.WriteAny hash [pub.Pedersen.N, pub.Pedersen.S, pub.Pedersen.T])

/-- The function `challenge`. -/
def challenge (env : Env) (hash : env.Hash) (pub : Public) (A : List Int) :
    Option (List Bool) :=
  let h := absorb env hash pub A
  let tmpBytes := readBuffer env h env.StatParam
  lowBits tmpBytes (List.range env.StatParam)

/-- First loop of `NewProof` over the indices `is`: the reduced samples `a` and
the commitments `A`. -/
def commit (pub : Public) (phi : Int) (sample : Nat → Int) :
    List Nat → Option (List Int × List Int)
  | [] => some ([], [])
  | i :: is =>
    match big.Mod (sample i) phi with
    | none => none
    | some a =>
      match commit pub phi sample is with
      | none => none
      | some (as, As) => some (a :: as, big.Exp 0 pub.Pedersen.T a pub.Pedersen.N :: As)

/-- Second loop of `NewProof` over the indices `is`: `z` is `a[i]`, replaced by
`(a[i] + Lambda) mod Phi` when `es[i]` is set. -/
def respond (priv : Private) (es : List Bool) (a : List Int) :
    List Nat → Option (List Int)
  | [] => some []
  | i :: is =>
    match a[i]?, es[i]? with
    | some z, some e =>
      match (if e then big.Mod (z + priv.Lambda) priv.Phi else some z) with
      | none => none
      | some z' =>
        match respond priv es a is with
        | none => none
        | some Z => some (z' :: Z)
    | _, _ => none

/-- The function `NewProof`, with `sample i` the value drawn for round `i`. -/
def NewProof (env : Env) (hash : env.Hash) (pub : Public) (priv : Private)
    (sample : Nat → Int) : Option Proof :=
  match commit pub priv.Phi sample (List.range env.StatParam) with
  | none => none
  | some (a, A) =>
    match challenge env hash pub A with
    | none => none
    | some es =>
      match respond priv es a (List.range env.StatParam) with
      | none => none
      | some Z => some { A := some A, Z := some Z }

/-- The loop of `Verify`: `k` rounds are left, `i` is the next index and `lhs`
the value the variable `lhs` holds on entry. -/
def verifyRounds (n s t : Int) (es : List Bool) (A Z : List Int) :
    Nat → Nat → Int → Option Bool
  | 0, _, _ => some true
  | k + 1, i, lhs =>
    match Z[i]?, A[i]? with
    | some z, some a =>
      if a = 1 then some false
      else
        let lhs' := big.Exp lhs t z n
        match es[i]? with
        | none => none
        | some e =>
          match (if e then big.Mod (a * s) n else some a) with
          | none => none
          | some rhs =>
            if lhs' ≠ rhs then some false
            else verifyRounds n s t es A Z k (i + 1) lhs'
    | _, _ => none

/-- The method `Proof.Verify`. -/
def Verify (env : Env) (hash : env.Hash) (p : Proof) (pub : Public) : Option Bool :=
  match IsValid env p pub with
  | none => none
  | some false => some false
  | some true =>
    if !env.Validate pub.Pedersen then some false
    else
      match p.A, p.Z with
      | some A, some Z =>
        match challenge env hash pub A with
        | none => none
        | some es =>
          verifyRounds pub.Pedersen.N pub.Pedersen.S pub.Pedersen.T es A Z env.StatParam 0 0
      | _, _ => none

/-- The check of one round of `Verify` on the entries `a`, `z` and the
challenge bit `e`. -/
def roundOK (n s t : Int) (e : Bool) (a z : Int) : Bool :=
  decide (a ≠ 1) && decide (t ^ z.toNat % n = if e then a * s % n else a)

/-- The check of round `i` on the vectors. -/
def roundOKAt (n s t : Int) (es : List Bool) (A Z : List Int) (i : Nat) : Bool :=
  roundOK n s t (es.getD i false) (A.getD i 0) (Z.getD i 0)

/-- The bit vector the function `challenge` returns: bit `i` is the low-order
bit of byte `i` of the output read from the hash. -/
def challengeBits (env : Env) (hash : env.Hash) (pub : Public) (A : List Int) : List Bool :=
  (List.range env.StatParam).map fun i =>
    env.ReadBytes (absorb env hash pub A) env.StatParam i % 256 % 2 == 1

/-- All the checks of `Verify` on a proof with both vectors present. -/
def accepts (env : Env) (hash : env.Hash) (A Z : List Int) (pub : Public) : Bool :=
  decide (A.length = env.StatParam) && decide (Z.length = env.StatParam)
    && arith.IsValidModN pub.Pedersen.N A && arith.IsValidModN pub.Pedersen.N Z
    && env.Validate pub.Pedersen
    && (List.range' 0 env.StatParam).all
        (roundOKAt pub.Pedersen.N pub.Pedersen.S pub.Pedersen.T
          (challengeBits env hash pub A) A Z)

/-- The vector `A` of the proof `NewProof` returns. -/
def honestA (env : Env) (pub : Public) (priv : Private) (sample : Nat → Int) : List Int :=
  (List.range env.StatParam).map fun i =>
    big.Exp 0 pub.Pedersen.T (sample i % priv.Phi) pub.Pedersen.N

/-- The vector `Z` of the proof `NewProof` returns, for the challenge `es`. -/
def honestZ (env : Env) (priv : Private) (sample : Nat → Int) (es : List Bool) : List Int :=
  (List.range env.StatParam).map fun i =>
    if es.getD i false then (sample i % priv.Phi + priv.Lambda) % priv.Phi
    else sample i % priv.Phi

/-- An instance with `n` rounds. The transcript is the list of the absorbed
values; byte `i` of its output is the sum of the absorbed values plus `i`.
`Validate` accepts parameters whose bases are valid modulo `N`. -/
def toyEnv (n : Nat) : Env where
  StatParam := n
  Hash := List Int
  WriteAny := fun h vs => h ++ vs
  ReadBytes := fun h _ i => (h.foldl (· + ·) 0).toNat + i
  Validate := fun p => arith.IsValidModN p.N [p.S, p.T]

/-- The setup `N = 15`, `t = 2`, `s = 2 ^ 3 mod 15 = 8`. -/
def toyPublic : Public := { Pedersen := { N := 15, S := 8, T := 2 } }

/-- The witness `lambda = 3`, `phi = φ(15) = 8`. -/
def toyPrivate : Private := { Lambda := 3, Phi := 8 }

end zkprm

/-! ## The package `mulg` and its collaborators -/

namespace paillier

/-- The type `paillier.PublicKey`: the modulus `N0`. -/
structure PublicKey where
  n : Int
  deriving DecidableEq

/-- The type `paillier.Ciphertext`: a residue modulo `N0²`. -/
structure Ciphertext where
  c : Int
  deriving DecidableEq

/-- The accessor `N()`. -/
def PublicKey.N (pk : PublicKey) : Int := pk.n

/-- Modelled from the spec: the `paillier` package is not among the sources.
`Multiply(ciphertext, scalar)`, written `k ⊙ C = C^k (mod N0²)` in `mulg.go`; the
power is the one `big.Int.Exp` computes into a fresh receiver. -/
def Ciphertext.Mul (pk : PublicKey) (ct : Ciphertext) (k : Int) : Ciphertext :=
  { c := big.Exp 0 ct.c k (pk.n * pk.n) }

/-- Modelled from the spec: `Randomize(ciphertext, nonce)`, written
`C • r^N0 (mod N0²)` in `mulg.go`. -/
def Ciphertext.Randomize (pk : PublicKey) (ct : Ciphertext) (nonce : Int) : Ciphertext :=
  { c := ct.c * big.Exp 0 nonce pk.n (pk.n * pk.n) % (pk.n * pk.n) }

/-- Modelled from the spec: `Add(ciphertext, ciphertext)`, the product of the
two residues modulo `N0²`. -/
def Ciphertext.Add (pk : PublicKey) (ct1 ct2 : Ciphertext) : Ciphertext :=
  { c := ct1.c * ct2.c % (pk.n * pk.n) }

/-- Modelled from the spec: equality of ciphertexts, as residues. -/
def Ciphertext.Equal (ct1 ct2 : Ciphertext) : Bool :=
  decide (ct1.c = ct2.c)

end paillier

namespace zkpedersen

/-- The type `pedersen.Verifier` of `pkg/zk/pedersen`: modulus `NHat` and bases
`s`, `t`. -/
structure Verifier where
  N : Int
  S : Int
  T : Int
  deriving DecidableEq

/-- Modelled from the spec: `pkg/zk/pedersen` is not among the sources.
`Commit(value, blinding)`, written `s^x t^y (mod NHat)` in `mulg.go`. -/
def Verifier.Commit (v : Verifier) (x y : Int) : Int :=
  big.Exp 0 v.S x v.N * big.Exp 0 v.T y v.N % v.N

/-- Modelled from the spec: the opening check of the Pedersen verifier for
`(z1, z2, E, S)` under the challenge `e`: `s^z1 t^z2 = E * S^e (mod NHat)`. -/
def Verifier.Verify (v : Verifier) (z1 z2 E S e : Int) : Bool :=
  decide (big.Exp 0 v.S z1 v.N * big.Exp 0 v.T z2 v.N % v.N = E * big.Exp 0 S e v.N % v.N)

end zkpedersen

namespace zkcommon

/-- A value handed to `MakeChallengeFq`: a ciphertext, a curve point or an
integer. -/
inductive Value (G : Type) where
  | ciphertext (c : paillier.Ciphertext)
  | point (p : G)
  | int (n : Int)
  deriving DecidableEq

end zkcommon

namespace zkmulg

/-- What `mulg.go` takes from packages that are not among the sources, over a
type `G` of curve points (an additive commutative group):

* `q`, the order of the curve group, and `g`, its base point;
* `L`, `LPlusEpsilon` and the range check `IsInInterval` of `params`;
* `hash domain values`, the integer the transcript hash yields for the domain
  tag and the values, before `MakeChallengeFq` reduces it. -/
structure Env (G : Type) where
  q : Nat
  g : G
  L : Nat
  LPlusEpsilon : Nat
  IsInInterval : Int → Nat → Bool
  hash : String → List (zkcommon.Value G) → Nat

variable {G : Type} [AddCommGroup G] [DecidableEq G]

/-- Modelled from the spec: `curve.NewScalarBigInt`, the integer reduced modulo
the group order. -/
def NewScalarBigInt (env : Env G) (n : Int) : Int := n % env.q

/-- Modelled from the spec: `Point.ScalarBaseMult`, `s • g`. -/
def ScalarBaseMult (env : Env G) (s : Int) : G := s • env.g

/-- Modelled from the spec: `Point.ScalarMult`, `s • P`. -/
def ScalarMult (s : Int) (P : G) : G := s • P

/-- Modelled from the spec: `Point.Equal`, `1` for equal points and `0`
otherwise. -/
def PointEqual (P Q : G) : Int := if P = Q then 1 else 0

/-- Modelled from the spec: `zkcommon.MakeChallengeFq`, the hash of the domain
tag and the values, reduced modulo the group order. -/
def MakeChallengeFq (env : Env G) (domain : String) (values : List (zkcommon.Value G)) : Int :=
  (env.hash domain values : Int) % env.q

/-- The constant `domain`. -/
def domain : String := "CMP-MULG"

structure Commitment (G : Type) where
  A : paillier.Ciphertext
  Bx : G
  E : Int
  S : Int
  deriving DecidableEq

structure Response where
  Z1 : Int
  Z2 : Int
  W : Int
  deriving DecidableEq

structure Proof (G : Type) where
  commitment : Commitment G
  response : Response
  deriving DecidableEq

/-- The values `Challenge` passes to `MakeChallengeFq` after the domain tag. -/
def Commitment.absorbed (commitment : Commitment G) : List (zkcommon.Value G) :=
  [.ciphertext commitment.A, .point commitment.Bx, .int commitment.E, .int commitment.S]

/-- The method `Commitment.Challenge`. -/
def Commitment.Challenge (env : Env G) (commitment : Commitment G) : Int :=
  MakeChallengeFq env domain commitment.absorbed

/-- The function `NewProof`, with `alpha`, `r`, `gamma`, `m` the values sampled,
in this order. The arguments `D` and `X` are not read. -/
def NewProof (env : Env G) (proverPailler : paillier.PublicKey)
    (verifierPedersen : zkpedersen.Verifier) (C _D : paillier.Ciphertext) (_X : G)
    (x rho : Int) (alpha r gamma m : Int) : Option (Proof G) :=
  let A := (paillier.Ciphertext.Mul proverPailler C alpha).Randomize proverPailler r
  let Bx := ScalarBaseMult env (NewScalarBigInt env alpha)
  let commitment : Commitment G :=
    { A := A
      Bx := Bx
      E := verifierPedersen.Commit alpha gamma
      S := verifierPedersen.Commit x m }
  let e := commitment.Challenge env
  let z1 := e * x + alpha
  let z2 := e * m + gamma
  let N0 := proverPailler.N
  match big.Mod (big.Exp 0 rho e N0 * r) N0 with
  | none => none
  | some w => some { commitment := commitment, response := { Z1 := z1, Z2 := z2, W := w } }

/-- The method `Proof.Verify`. -/
def Verify (env : Env G) (proof : Proof G) (proverPailler : paillier.PublicKey)
    (verifierPedersen : zkpedersen.Verifier) (C D : paillier.Ciphertext) (X : G) : Bool :=
  if !env.IsInInterval proof.response.Z1 env.LPlusEpsilon then false
  else
    let e := proof.commitment.Challenge env
    let lhs := (paillier.Ciphertext.Mul proverPailler C proof.response.Z1).Randomize
      proverPailler proof.response.W
    let rhs := paillier.Ciphertext.Add proverPailler
      (paillier.Ciphertext.Mul proverPailler D e) proof.commitment.A
    if !lhs.Equal rhs then false
    else
      let lhs := ScalarBaseMult env (NewScalarBigInt env proof.response.Z1)
      let rhs := ScalarMult (NewScalarBigInt env e) X + proof.commitment.Bx
      if PointEqual lhs rhs ≠ 1 then false
      else if !verifierPedersen.Verify proof.response.Z1 proof.response.Z2
          proof.commitment.E proof.commitment.S e then false
      else true

/-- The integer whose sign is that of `z` and whose absolute value is `|z|` with
bit `k` flipped. -/
def flipBit (z : Int) (k : Nat) : Int :=
  if z < 0 then -((z.natAbs ^^^ 2 ^ k : Nat) : Int) else ((z.natAbs ^^^ 2 ^ k : Nat) : Int)

/-- The proof with bit `k` of `|Z1|` flipped and every other field unchanged. -/
def Proof.flipZ1 (proof : Proof G) (k : Nat) : Proof G :=
  { commitment := proof.commitment
    response := { Z1 := flipBit proof.response.Z1 k
                  Z2 := proof.response.Z2
                  W := proof.response.W } }

/-- The number a hashed value contributes in `toyEnv`. -/
def toyCode : zkcommon.Value (ZMod 7) → Nat
  | .ciphertext c => c.c.toNat
  | .point p => p.val
  | .int n => n.toNat

/-- An instance over the additive group `ℤ/7ℤ` with base point `1`: the group
has the odd prime order `7`. `L = 1`, `L + ε = 4`, the intervals are closed, and
the hash is the length of the domain tag plus the sum of the codes of the values. -/
def toyEnv : Env (ZMod 7) where
  q := 7
  g := 1
  L := 1
  LPlusEpsilon := 4
  IsInInterval := fun n p => decide (-(2 ^ p : Int) ≤ n ∧ n ≤ 2 ^ p)
  hash := fun d vs => d.length + (vs.map toyCode).sum

/-- The Paillier key `N0 = 15`. -/
def toyKey : paillier.PublicKey := { n := 15 }

/-- The Pedersen setup `NHat = 35`, `s = 2`, `t = 3`. -/
def toyPedersen : zkpedersen.Verifier := { N := 35, S := 2, T := 3 }

/-- The ciphertext `C = 4`. -/
def toyC : paillier.Ciphertext := { c := 4 }

/-- The ciphertext `D = (1 ⊙ C)` randomized by `rho = 2`. -/
def toyD : paillier.Ciphertext := (paillier.Ciphertext.Mul toyKey toyC 1).Randomize toyKey 2

/-- The proof `NewProof` returns for `toyC`, `toyD`, `X = g^1`, `x = 1`,
`rho = 2` and the samples `alpha = 3`, `r = 7`, `gamma = 2`, `m = 1`. -/
def toyProof : Proof (ZMod 7) :=
  { commitment := { A := { c := 127 }, Bx := 3, E := 2, S := 6 }
    response := { Z1 := 9, Z2 := 8, W := 13 } }

/-- A hash that agrees with that of `toyEnv` on the commitment of `toyProof`
and yields `0` on every other list of values. -/
def toyOtherHash (d : String) (vs : List (zkcommon.Value (ZMod 7))) : Nat :=
  if vs = toyProof.commitment.absorbed then toyEnv.hash d vs else 0

/-- A hash that agrees with that of `toyEnv` on every list of values other than
the commitment of `toyProof`, where it yields `147` (the challenge `0`) and not
`146` (the challenge `6`). -/
def toyFlippedHash (d : String) (vs : List (zkcommon.Value (ZMod 7))) : Nat :=
  if vs = toyProof.commitment.absorbed then 147 else toyEnv.hash d vs

end zkmulg

/-! # Part II: lemmas and theorems -/

/-! ## Lemmas on `prm` -/

namespace arith

theorem IsValidModN_mem {N : Int} {ints : List Int} (h : IsValidModN N ints = true)
    {x : Int} (hx : x ∈ ints) : 0 < x ∧ x < N ∧ Int.gcd x N = 1 := by
  unfold IsValidModN at h
  have := List.all_eq_true.mp h x hx
  simpa [Bool.and_eq_true, and_assoc] using this

end arith

namespace big

theorem Exp_of_nonneg (z x y m : Int) (hm : m ≠ 0) (hy : 0 ≤ y) :
    Exp z x y m = x ^ y.toNat % m := by
  simp [Exp, hm, hy]

theorem Mod_of_ne_zero (x m : Int) (hm : m ≠ 0) : Mod x m = some (x % m) := by
  simp [Mod, hm]

theorem gcdA_neg_three : Int.gcdA (-3) 7 = 2 := by
  have h : (-3 : Int) = Int.negSucc 2 := rfl
  rw [h]
  simp only [Int.gcdA, Nat.gcdA, Nat.xgcd]
  norm_num [Nat.xgcdAux_rec, Nat.xgcdAux]

/-- The sign rule of `Exp` for a negative base and a negative odd exponent: the
inverse of `-3` modulo `7` is `2`, and the value is `7 - 2`. -/
theorem Exp_neg_base_neg_odd : Exp 0 (-3) (-1) 7 = 5 := by
  have hg : Int.gcd (-3) 7 = 1 := by decide
  simp only [Exp, ModInverse, gcdA_neg_three, hg]
  decide

end big

namespace zkprm

theorem verifyRounds_eq (n s t : Int) (es : List Bool) (A Z : List Int) (hn : n ≠ 0)
    (hZ : ∀ z ∈ Z, 0 ≤ z) :
    ∀ (k i : Nat) (lhs : Int), i + k ≤ A.length → i + k ≤ Z.length → i + k ≤ es.length →
      verifyRounds n s t es A Z k i lhs
        = some ((List.range' i k).all (roundOKAt n s t es A Z)) := by
  intro k
  induction k with
  | zero => intro i lhs _ _ _; simp [verifyRounds]
  | succ k ih =>
    intro i lhs hA hZl he
    have hiA : i < A.length := by omega
    have hiZ : i < Z.length := by omega
    have hie : i < es.length := by omega
    have hz : 0 ≤ Z[i] := hZ _ (List.getElem_mem _)
    have ih' := fun l => ih (i + 1) l (by omega) (by omega) (by omega)
    have eA : A[i]? = some A[i] := List.getElem?_eq_getElem hiA
    have eZ : Z[i]? = some Z[i] := List.getElem?_eq_getElem hiZ
    have ee : es[i]? = some es[i] := List.getElem?_eq_getElem hie
    simp only [verifyRounds, eA, eZ, ee, big.Exp_of_nonneg _ _ _ _ hn hz,
      big.Mod_of_ne_zero _ _ hn, List.range'_succ, List.all_cons, roundOKAt, roundOK,
      List.getD_eq_getElem?_getD, Option.getD_some, ih']
    by_cases ha : A[i] = 1
    · simp [ha]
    · cases hes : es[i]
      · by_cases hr : t ^ Z[i].toNat % n = A[i] <;> simp [ha, hr]
      · by_cases hr : t ^ Z[i].toNat % n = A[i] * s % n <;> simp [ha, hr]

theorem lowBits_eq (tmpBytes : List Nat) :
    ∀ is : List Nat, (∀ i ∈ is, i < tmpBytes.length) →
      lowBits tmpBytes is = some (is.map fun i => tmpBytes.getD i 0 % 2 == 1) := by
  intro is
  induction is with
  | nil => intro _; rfl
  | cons i is ih =>
    intro h
    have hi : i < tmpBytes.length := h i (List.mem_cons_self _ _)
    have e : tmpBytes[i]? = some tmpBytes[i] := List.getElem?_eq_getElem hi
    simp only [lowBits, e, ih (fun j hj => h j (List.mem_cons_of_mem _ hj)), List.map_cons,
      List.getD_eq_getElem?_getD, Option.getD_some, Nat.and_one_is_mod]

theorem readBuffer_length (env : Env) (h : env.Hash) (n : Nat) :
    (readBuffer env h n).length = n := by
  simp [readBuffer]

theorem readBuffer_getD (env : Env) (h : env.Hash) (n i : Nat) (hi : i < n) :
    (readBuffer env h n).getD i 0 = env.ReadBytes h n i % 256 := by
  simp [readBuffer, List.getD_eq_getElem?_getD, List.getElem?_map, List.getElem?_range hi]

theorem challengeBits_length (env : Env) (hash : env.Hash) (pub : Public) (A : List Int) :
    (challengeBits env hash pub A).length = env.StatParam := by
  simp [challengeBits]

theorem challenge_eq (env : Env) (hash : env.Hash) (pub : Public) (A : List Int) :
    challenge env hash pub A = some (challengeBits env hash pub A) := by
  unfold challenge
  simp only []
  rw [lowBits_eq _ _ (fun i hi => by
    rw [readBuffer_length]; exact List.mem_range.mp hi)]
  congr 1
  apply List.map_congr_left
  intro i hi
  rw [readBuffer_getD _ _ _ _ (List.mem_range.mp hi)]

theorem Verify_eq_accepts (env : Env) (hash : env.Hash) (A Z : List Int) (pub : Public) :
    Verify env hash { A := some A, Z := some Z } pub = some (accepts env hash A Z pub) := by
  unfold Verify IsValid accepts
  by_cases hA : A.length = env.StatParam
  swap
  · simp [hA]
  by_cases hZ : Z.length = env.StatParam
  swap
  · simp [hA, hZ]
  cases hvA : arith.IsValidModN pub.Pedersen.N A
  · simp [hA, hZ, hvA]
  cases hvZ : arith.IsValidModN pub.Pedersen.N Z
  · simp [hA, hZ, hvA, hvZ]
  cases hval : env.Validate pub.Pedersen
  · simp [hA, hZ, hvA, hvZ, hval]
  simp only [hA, hZ, hvA, hvZ, hval, ne_eq, not_true_eq_false, if_false, Bool.not_true,
    Bool.false_eq_true, decide_True, Bool.true_and, challenge_eq]
  by_cases h0 : env.StatParam = 0
  · simp [h0, verifyRounds]
  · have hpos : 0 < A.length := by omega
    have hmem : A[0] ∈ A := List.getElem_mem _
    have hr := arith.IsValidModN_mem hvA hmem
    have hn : pub.Pedersen.N ≠ 0 := by omega
    have hZn : ∀ z ∈ Z, 0 ≤ z := fun z hz => le_of_lt (arith.IsValidModN_mem hvZ hz).1
    rw [verifyRounds_eq _ _ _ _ _ _ hn hZn env.StatParam 0 0 (by omega) (by omega)
      (by rw [challengeBits_length]; omega)]

theorem commit_eq (pub : Public) (phi : Int) (sample : Nat → Int) (hphi : phi ≠ 0) :
    ∀ is : List Nat, commit pub phi sample is
      = some (is.map fun i => sample i % phi,
          is.map fun i => big.Exp 0 pub.Pedersen.T (sample i % phi) pub.Pedersen.N) := by
  intro is
  induction is with
  | nil => rfl
  | cons i is ih => simp [commit, big.Mod_of_ne_zero _ _ hphi, ih]

theorem respond_eq (priv : Private) (es : List Bool) (a : List Int) (hphi : priv.Phi ≠ 0) :
    ∀ is : List Nat, (∀ i ∈ is, i < a.length ∧ i < es.length) →
      respond priv es a is
        = some (is.map fun i =>
            if es.getD i false then (a.getD i 0 + priv.Lambda) % priv.Phi else a.getD i 0) := by
  intro is
  induction is with
  | nil => intro _; rfl
  | cons i is ih =>
    intro h
    obtain ⟨hia, hie⟩ := h i (List.mem_cons_self _ _)
    have ea : a[i]? = some a[i] := List.getElem?_eq_getElem hia
    have ee : es[i]? = some es[i] := List.getElem?_eq_getElem hie
    have ih' := ih (fun j hj => h j (List.mem_cons_of_mem _ hj))
    cases hb : es[i] <;>
      simp [respond, ea, ee, hb, ih', big.Mod_of_ne_zero _ _ hphi, List.getD_eq_getElem?_getD]

theorem prm_NewProof_eq (env : Env) (hash : env.Hash) (pub : Public) (priv : Private)
    (sample : Nat → Int) (hphi : priv.Phi ≠ 0) :
    NewProof env hash pub priv sample
      = some { A := some (honestA env pub priv sample),
               Z := some (honestZ env priv sample
                      (challengeBits env hash pub (honestA env pub priv sample))) } := by
  unfold NewProof
  rw [commit_eq _ _ _ hphi]
  simp only [challenge_eq]
  rw [respond_eq _ _ _ hphi]
  · simp only [honestA, honestZ]
    congr 3
    apply List.map_congr_left
    intro i hi
    have hi' : i < env.StatParam := List.mem_range.mp hi
    simp [List.getD_eq_getElem?_getD, List.getElem?_map, List.getElem?_range hi']
  · intro i hi
    have hi' : i < env.StatParam := List.mem_range.mp hi
    simp [challengeBits_length, hi']

theorem int_pow_totient {t : Int} {N : Nat} (h : Int.gcd t N = 1) :
    t ^ Nat.totient N ≡ 1 [ZMOD N] := by
  have hc : IsCoprime t (N : Int) := Int.isCoprime_iff_gcd_eq_one.mpr h
  obtain ⟨a, b, hab⟩ := hc
  have h1 : (t : ZMod N) * (a : ZMod N) = 1 := by
    have := congrArg (Int.cast : Int → ZMod N) hab
    simpa [mul_comm] using this
  obtain ⟨u, hu⟩ := isUnit_of_mul_eq_one _ _ h1
  have h2 := congrArg (fun x : (ZMod N)ˣ => (x : ZMod N)) (ZMod.pow_totient u)
  simp only [Units.val_pow_eq_pow_val, hu, Units.val_one] at h2
  rw [← ZMod.intCast_eq_intCast_iff]
  simpa using h2

theorem pow_mod_period {t N : Int} {phi : Nat} (h1 : t ^ phi ≡ 1 [ZMOD N]) (k : Nat) :
    t ^ (k % phi) ≡ t ^ k [ZMOD N] := by
  conv_rhs => rw [← Nat.div_add_mod k phi, pow_add, pow_mul]
  have := (h1.pow (k / phi)).mul_right (t ^ (k % phi))
  simpa using this.symm

theorem honest_true_round {t N a lam phi : Int} (ha : 0 ≤ a) (hl : 0 ≤ lam) (hphi : 0 < phi)
    (h1 : t ^ phi.toNat ≡ 1 [ZMOD N]) :
    t ^ ((a + lam) % phi).toNat % N = (t ^ a.toNat % N) * (t ^ lam.toNat % N) % N := by
  have e : ((a + lam) % phi).toNat = (a.toNat + lam.toNat) % phi.toNat := by
    zify
    rw [Int.toNat_of_nonneg (Int.emod_nonneg _ (ne_of_gt hphi)), Int.toNat_of_nonneg ha,
      Int.toNat_of_nonneg hl, Int.toNat_of_nonneg (le_of_lt hphi)]
  rw [e]
  have h2 : t ^ ((a.toNat + lam.toNat) % phi.toNat) ≡ t ^ a.toNat * t ^ lam.toNat [ZMOD N] := by
    rw [← pow_add]; exact pow_mod_period h1 _
  have h3 : (t ^ a.toNat % N) * (t ^ lam.toNat % N) ≡ t ^ a.toNat * t ^ lam.toNat [ZMOD N] :=
    Int.ModEq.mul (Int.mod_modEq _ _) (Int.mod_modEq _ _)
  exact h2.trans h3.symm

theorem honestA_getD (env : Env) (pub : Public) (priv : Private) (sample : Nat → Int)
    (i : Nat) (hi : i < env.StatParam) :
    (honestA env pub priv sample).getD i 0
      = big.Exp 0 pub.Pedersen.T (sample i % priv.Phi) pub.Pedersen.N := by
  simp [honestA, List.getD_eq_getElem?_getD, List.getElem?_map, List.getElem?_range hi]

theorem honestZ_getD (env : Env) (priv : Private) (sample : Nat → Int) (es : List Bool)
    (i : Nat) (hi : i < env.StatParam) :
    (honestZ env priv sample es).getD i 0
      = if es.getD i false then (sample i % priv.Phi + priv.Lambda) % priv.Phi
        else sample i % priv.Phi := by
  simp [honestZ, List.getD_eq_getElem?_getD, List.getElem?_map, List.getElem?_range hi]

/-- The equation of round `i` holds for the vectors of the honest prover,
whatever the challenge bits are. -/
theorem honest_round_eq (env : Env) (pub : Public) (priv : Private) (sample : Nat → Int)
    (es : List Bool) (hN : pub.Pedersen.N ≠ 0) (hphi : 0 < priv.Phi)
    (h1 : pub.Pedersen.T ^ priv.Phi.toNat ≡ 1 [ZMOD pub.Pedersen.N])
    (hl : 0 ≤ priv.Lambda)
    (hs : pub.Pedersen.S = pub.Pedersen.T ^ priv.Lambda.toNat % pub.Pedersen.N)
    (i : Nat) (hi : i < env.StatParam) :
    pub.Pedersen.T ^ ((honestZ env priv sample es).getD i 0).toNat % pub.Pedersen.N
      = if es.getD i false then
          (honestA env pub priv sample).getD i 0 * pub.Pedersen.S % pub.Pedersen.N
        else (honestA env pub priv sample).getD i 0 := by
  have ha : 0 ≤ sample i % priv.Phi := Int.emod_nonneg _ (ne_of_gt hphi)
  rw [honestA_getD _ _ _ _ _ hi, honestZ_getD _ _ _ _ _ hi, big.Exp_of_nonneg _ _ _ _ hN ha]
  cases es.getD i false
  · simp
  · simp only [if_true, hs]
    exact honest_true_round ha hl hphi h1

theorem all_range_iff (n : Nat) (f : Nat → Bool) :
    (List.range' 0 n).all f = true ↔ ∀ i, i < n → f i = true := by
  simp [List.all_eq_true, List.mem_range'_1]

theorem forall_getD_ne_iff (l : List Int) (n : Nat) (hl : l.length = n) :
    (∀ i, i < n → l.getD i 0 ≠ 1) ↔ ∀ a ∈ l, a ≠ 1 := by
  subst hl
  constructor
  · intro h a ha
    obtain ⟨i, hi, rfl⟩ := List.mem_iff_getElem.mp ha
    have := h i hi
    simpa [List.getD_eq_getElem?_getD, List.getElem?_eq_getElem hi] using this
  · intro h i hi
    have := h l[i] (List.getElem_mem _)
    simpa [List.getD_eq_getElem?_getD, List.getElem?_eq_getElem hi] using this

/-- C1 (as amended). For a setup `(N, s, t)` with `N > 0` that passes `Validate`
and a witness with `phi = φ(N)`, `t` a unit modulo `N`, `lambda ≥ 0` and
`s = t ^ lambda mod N`, `NewProof` returns a proof for every hash and every
sampled values, and `Verify` (from the same hash state) returns `true` on it
exactly when its vectors `A` and `Z` pass the mod-`N` validity check and no
`A_i` equals `1`; it returns `false` otherwise. -/
theorem prm_completeness (env : Env) (hash : env.Hash) (pub : Public) (priv : Private)
    (sample : Nat → Int) (hN : 0 < pub.Pedersen.N)
    (hphi : priv.Phi = (Nat.totient pub.Pedersen.N.toNat : Int))
    (ht : Int.gcd pub.Pedersen.T pub.Pedersen.N = 1) (hl : 0 ≤ priv.Lambda)
    (hs : pub.Pedersen.S = pub.Pedersen.T ^ priv.Lambda.toNat % pub.Pedersen.N)
    (hval : env.Validate pub.Pedersen = true) :
    ∃ A Z, NewProof env hash pub priv sample = some { A := some A, Z := some Z }
      ∧ (∃ b, Verify env hash { A := some A, Z := some Z } pub = some b)
      ∧ (Verify env hash { A := some A, Z := some Z } pub = some true ↔
          arith.IsValidModN pub.Pedersen.N A = true
          ∧ arith.IsValidModN pub.Pedersen.N Z = true ∧ ∀ a ∈ A, a ≠ 1) := by
  have hN' : ((pub.Pedersen.N.toNat : Nat) : Int) = pub.Pedersen.N :=
    Int.toNat_of_nonneg (le_of_lt hN)
  have hpos : 0 < priv.Phi := by
    rw [hphi]
    exact_mod_cast Nat.totient_pos.mpr (by omega)
  have h1 : pub.Pedersen.T ^ priv.Phi.toNat ≡ 1 [ZMOD pub.Pedersen.N] := by
    have h := int_pow_totient (t := pub.Pedersen.T) (N := pub.Pedersen.N.toNat)
      (by rw [hN']; exact ht)
    rw [hN'] at h
    rw [hphi, Int.toNat_natCast]
    exact h
  refine ⟨_, _, prm_NewProof_eq env hash pub priv sample (ne_of_gt hpos),
    ⟨_, Verify_eq_accepts _ _ _ _ _⟩, ?_⟩
  rw [Verify_eq_accepts, Option.some_inj]
  unfold accepts
  have hlenA : (honestA env pub priv sample).length = env.StatParam := by simp [honestA]
  have hrounds : ∀ es, (List.range' 0 env.StatParam).all
      (roundOKAt pub.Pedersen.N pub.Pedersen.S pub.Pedersen.T es
        (honestA env pub priv sample) (honestZ env priv sample es)) = true
      ↔ ∀ a ∈ honestA env pub priv sample, a ≠ 1 := by
    intro es
    rw [all_range_iff, ← forall_getD_ne_iff _ _ hlenA]
    refine forall₂_congr fun i hi => ?_
    have e := honest_round_eq env pub priv sample es (ne_of_gt hN) hpos h1 hl hs i hi
    simp only [roundOKAt, roundOK, e]
    simp
  have hlenZ : ∀ es, (honestZ env priv sample es).length = env.StatParam := by
    intro es; simp [honestZ]
  simp only [Bool.and_eq_true, decide_eq_true_eq, hrounds, hval, hlenA, hlenZ]
  tauto

/-- C1, at a concrete input: three rounds over `N = 15`, `t = 2`, `lambda = 3`,
every sample equal to `1`. The proof built is `A = [2, 2, 2]`, `Z = [4, 1, 4]`
and it is accepted. -/
theorem prm_completeness_witness :
    (∃ A Z, NewProof (toyEnv 3) [] toyPublic toyPrivate (fun _ => 1)
        = some { A := some A, Z := some Z }
      ∧ (∃ b, Verify (toyEnv 3) [] { A := some A, Z := some Z } toyPublic = some b)
      ∧ (Verify (toyEnv 3) [] { A := some A, Z := some Z } toyPublic = some true ↔
          arith.IsValidModN toyPublic.Pedersen.N A = true
          ∧ arith.IsValidModN toyPublic.Pedersen.N Z = true ∧ ∀ a ∈ A, a ≠ 1))
    ∧ NewProof (toyEnv 3) [] toyPublic toyPrivate (fun _ => 1)
        = some { A := some [2, 2, 2], Z := some [4, 1, 4] }
    ∧ Verify (toyEnv 3) [] { A := some [2, 2, 2], Z := some [4, 1, 4] } toyPublic = some true :=
  ⟨prm_completeness (toyEnv 3) [] toyPublic toyPrivate (fun _ => 1) (by decide) (by decide)
      (by decide) (by decide) (by decide) (by decide),
    by decide, by decide⟩

/-- C1 as stated fails: over `N = 15`, `t = 2`, `lambda = 3`, `s = 8`,
`phi = φ(15) = 8`, when every sample is `4` the prover commits to
`A_i = 2 ^ 4 mod 15 = 1`; the proof `A = [1, 1]`, `Z = [7, 4]` passes the
structural check and `Validate`, and `Verify` returns `false`. -/
theorem prm_completeness_fails :
    ¬ ∀ (env : Env) (hash : env.Hash) (pub : Public) (priv : Private) (sample : Nat → Int),
        0 < pub.Pedersen.N →
        priv.Phi = (Nat.totient pub.Pedersen.N.toNat : Int) →
        Int.gcd pub.Pedersen.T pub.Pedersen.N = 1 →
        0 ≤ priv.Lambda →
        pub.Pedersen.S = pub.Pedersen.T ^ priv.Lambda.toNat % pub.Pedersen.N →
        env.Validate pub.Pedersen = true →
        ∃ p, NewProof env hash pub priv sample = some p
          ∧ Verify env hash p pub = some true := by
  intro h
  obtain ⟨p, hp, hv⟩ := h (toyEnv 2) [] toyPublic toyPrivate (fun _ => 4)
    (by decide) (by decide) (by decide) (by decide) (by decide) (by decide)
  have e : NewProof (toyEnv 2) [] toyPublic toyPrivate (fun _ => 4)
      = some { A := some [1, 1], Z := some [7, 4] } := by decide
  have hI : IsValid (toyEnv 2) { A := some [1, 1], Z := some [7, 4] } toyPublic = some true := by
    decide
  rw [e, Option.some_inj] at hp
  subst hp
  have : Verify (toyEnv 2) [] { A := some [1, 1], Z := some [7, 4] } toyPublic = some false := by
    decide
  rw [this] at hv
  exact absurd hv (by decide)

/-- C4. On a proof with both vectors present `Verify` returns a boolean, and it
returns `true` exactly when (1) `A` and `Z` have `StatParam` entries each and
pass the mod-`N` validity check, (2) the parameters pass `Validate`, and (3) in
every round `i < StatParam`, `A_i ≠ 1` and `t ^ Z_i mod N` equals `A_i` when the
recomputed challenge bit `e_i` is false and `A_i * s mod N` when it is true. -/
theorem prm_verify_characterisation (env : Env) (hash : env.Hash) (pub : Public)
    (A Z : List Int) :
    (∃ b, Verify env hash { A := some A, Z := some Z } pub = some b)
    ∧ (Verify env hash { A := some A, Z := some Z } pub = some true ↔
        (A.length = env.StatParam ∧ Z.length = env.StatParam
          ∧ arith.IsValidModN pub.Pedersen.N A = true
          ∧ arith.IsValidModN pub.Pedersen.N Z = true)
        ∧ env.Validate pub.Pedersen = true
        ∧ ∃ es, challenge env hash pub A = some es ∧
            ∀ i, i < env.StatParam →
              A.getD i 0 ≠ 1 ∧
              pub.Pedersen.T ^ (Z.getD i 0).toNat % pub.Pedersen.N
                = if es.getD i false then A.getD i 0 * pub.Pedersen.S % pub.Pedersen.N
                  else A.getD i 0) := by
  refine ⟨⟨_, Verify_eq_accepts env hash A Z pub⟩, ?_⟩
  rw [Verify_eq_accepts, Option.some_inj]
  unfold accepts
  simp only [Bool.and_eq_true, decide_eq_true_eq, all_range_iff, challenge_eq,
    Option.some_inj, exists_eq_left', roundOKAt, roundOK]
  tauto

/-- C10. `challenge` returns a vector of exactly `StatParam` booleans; entry `i`
is `true` iff the low-order bit of byte `i` of the buffer read from the hash is
`1`; two buffers of `StatParam` bytes (or more) that agree on the low-order bit
of each of their first `StatParam` bytes give the same vector; hence two
derivations whose hash outputs agree on these bits return the same challenge. -/
theorem prm_challenge_low_bits (env : Env) (hash : env.Hash) (pub : Public) (A : List Int) :
    (∃ es, challenge env hash pub A = some es ∧ es.length = env.StatParam ∧
      ∀ i, i < env.StatParam →
        (es[i]? = some true ↔
          ((readBuffer env (absorb env hash pub A) env.StatParam).getD i 0) % 2 = 1))
    ∧ (∀ tmp tmp' : List Nat, env.StatParam ≤ tmp.length → env.StatParam ≤ tmp'.length →
        (∀ i, i < env.StatParam → tmp.getD i 0 % 2 = tmp'.getD i 0 % 2) →
        lowBits tmp (List.range env.StatParam) = lowBits tmp' (List.range env.StatParam))
    ∧ (∀ (hash' : env.Hash) (pub' : Public) (A' : List Int),
        (∀ i, i < env.StatParam →
          (readBuffer env (absorb env hash pub A) env.StatParam).getD i 0 % 2
            = (readBuffer env (absorb env hash' pub' A') env.StatParam).getD i 0 % 2) →
        challenge env hash pub A = challenge env hash' pub' A') := by
  have key : ∀ tmp tmp' : List Nat, env.StatParam ≤ tmp.length → env.StatParam ≤ tmp'.length →
      (∀ i, i < env.StatParam → tmp.getD i 0 % 2 = tmp'.getD i 0 % 2) →
      lowBits tmp (List.range env.StatParam) = lowBits tmp' (List.range env.StatParam) := by
    intro tmp tmp' h h' hb
    rw [lowBits_eq _ _ (fun i hi => lt_of_lt_of_le (List.mem_range.mp hi) h),
      lowBits_eq _ _ (fun i hi => lt_of_lt_of_le (List.mem_range.mp hi) h')]
    congr 1
    apply List.map_congr_left
    intro i hi
    rw [hb i (List.mem_range.mp hi)]
  refine ⟨?_, key, ?_⟩
  · refine ⟨_, challenge_eq env hash pub A, challengeBits_length env hash pub A, ?_⟩
    intro i hi
    rw [readBuffer_getD _ _ _ _ hi]
    simp [challengeBits, List.getElem?_map, List.getElem?_range hi]
  · intro hash' pub' A' hb
    exact key _ _ (le_of_eq (readBuffer_length _ _ _).symm)
      (le_of_eq (readBuffer_length _ _ _).symm) hb

/-- C9. The vector `challenge` returns is computed from the hash state reached
by absorbing `N, s, t` and then `A_0, A_1, ...` in this order, starting from the
given state; equal states and equal `(N, s, t, A)` give equal vectors; and the
vector with which `NewProof` builds `Z` is the one `Verify`, started from the
same hash state, recomputes from the `A` of the returned proof and uses in its
rounds. -/
theorem prm_challenge_determinism (env : Env) (hash : env.Hash) (pub : Public)
    (A : List Int) :
    challenge env hash pub A
      = lowBits
          (readBuffer env
            (A.foldl (fun h a => env.WriteAny h [a])
              (env.WriteAny hash [pub.Pedersen.N, pub.Pedersen.S, pub.Pedersen.T]))
            env.StatParam)
          (List.range env.StatParam)
    ∧ (∀ (hash' : env.Hash) (pub' : Public) (A' : List Int), hash' = hash →
        pub'.Pedersen.N = pub.Pedersen.N → pub'.Pedersen.S = pub.Pedersen.S →
        pub'.Pedersen.T = pub.Pedersen.T → A' = A →
        challenge env hash' pub' A' = challenge env hash pub A)
    ∧ (∀ (priv : Private) (sample : Nat → Int) (p : Proof),
        NewProof env hash pub priv sample = some p →
        ∃ a A' es Z,
          commit pub priv.Phi sample (List.range env.StatParam) = some (a, A')
          ∧ challenge env hash pub A' = some es
          ∧ respond priv es a (List.range env.StatParam) = some Z
          ∧ p = { A := some A', Z := some Z }
          ∧ (IsValid env p pub = some true → env.Validate pub.Pedersen = true →
              Verify env hash p pub
                = verifyRounds pub.Pedersen.N pub.Pedersen.S pub.Pedersen.T es A' Z
                    env.StatParam 0 0)) := by
  refine ⟨rfl, ?_, ?_⟩
  · intro hash' pub' A' hh hN hS hT hA
    subst hh hA
    simp only [challenge, absorb, hN, hS, hT]
  · intro priv sample p hp
    unfold NewProof at hp
    cases hc : commit pub priv.Phi sample (List.range env.StatParam) with
    | none => simp [hc] at hp
    | some aA =>
      obtain ⟨a, A'⟩ := aA
      cases hes : challenge env hash pub A' with
      | none => simp [hc, hes] at hp
      | some es =>
        cases hZ : respond priv es a (List.range env.StatParam) with
        | none => simp [hc, hes, hZ] at hp
        | some Z =>
          simp only [hc, hes, hZ, Option.some_inj] at hp
          subst hp
          refine ⟨a, A', es, Z, rfl, hes, hZ, rfl, ?_⟩
          intro hI hV
          simp [Verify, hI, hV, hes]

end zkprm

/-! ## Lemmas on `mulg` -/

namespace big

theorem exists_unit_of_gcd {c : Int} {n : Nat} (h : Int.gcd c n = 1) :
    ∃ u : (ZMod n)ˣ, (u : ZMod n) = (c : ZMod n)
      ∧ ((u⁻¹ : (ZMod n)ˣ) : ZMod n) = (Int.gcdA c n : ZMod n) := by
  have hb := Int.gcd_eq_gcd_ab c n
  rw [h] at hb
  have h1 : (c : ZMod n) * (Int.gcdA c n : ZMod n) = 1 := by
    have := congrArg (Int.cast : Int → ZMod n) hb
    simpa using this.symm
  refine ⟨⟨c, Int.gcdA c n, h1, by rw [mul_comm]; exact h1⟩, rfl, rfl⟩

theorem Exp_cast_nonneg (z c k : Int) (n : Nat) (hn : n ≠ 0) (hk : 0 ≤ k) :
    ((Exp z c k n : Int) : ZMod n) = (c : ZMod n) ^ k.toNat := by
  rw [Exp_of_nonneg _ _ _ _ (by exact_mod_cast hn) hk, ZMod.intCast_mod]
  push_cast
  rfl

theorem Exp_cast_unit (z c k : Int) (n : Nat) (hn : n ≠ 0) (u : (ZMod n)ˣ)
    (hu : (u : ZMod n) = (c : ZMod n)) (hc : Int.gcd c n = 1) (hc0 : 0 ≤ c) :
    ((Exp z c k n : Int) : ZMod n) = ((u ^ k : (ZMod n)ˣ) : ZMod n) := by
  by_cases hk : 0 ≤ k
  · rw [Exp_cast_nonneg _ _ _ _ hn hk, ← hu]
    obtain ⟨j, rfl⟩ := Int.eq_ofNat_of_zero_le hk
    simp
  · have hn' : (n : Int) ≠ 0 := by exact_mod_cast hn
    obtain ⟨v, hv, hvi⟩ := exists_unit_of_gcd hc
    have huv : u = v := Units.ext (hu.trans hv.symm)
    subst huv
    obtain ⟨j, hj⟩ : ∃ j : Nat, k = -(j : Int) := ⟨(-k).toNat, by
      rw [Int.toNat_of_nonneg (by omega)]; ring⟩
    subst hj
    simp only [Exp, hn', hk, hc, not_lt.mpr hc0, false_and, if_false, if_true, ModInverse]
    rw [ZMod.intCast_mod]
    push_cast
    rw [← hvi]
    simp [← inv_pow]

/-- Powers to the `n` of integers congruent modulo `n` are congruent modulo `n²`. -/
theorem pow_cast_sq {a b : Int} {n : Nat} (h : a ≡ b [ZMOD n]) :
    ((a : ZMod (n * n)) ^ n) = ((b : ZMod (n * n)) ^ n) := by
  have hd : (n : Int) ∣ a - b := (Int.modEq_iff_dvd.mp h.symm)
  have h2 := dvd_sub_pow_of_dvd_sub hd 1
  simp only [pow_one] at h2
  have h3 : (((n * n : Nat) : Int)) ∣ a ^ n - b ^ n := by
    have : ((n * n : Nat) : Int) = (n : Int) ^ (1 + 1) := by push_cast; ring
    rw [this]; exact h2
  have h4 := (ZMod.intCast_zmod_eq_zero_iff_dvd _ _).mpr h3
  push_cast at h4
  exact sub_eq_zero.mp h4

end big

namespace paillier

theorem honest_equation (pk : PublicKey) (C : Ciphertext) (x rho alpha r e : Int)
    (hN : 0 < pk.n) (hC : Int.gcd C.c pk.n = 1) (hC0 : 0 ≤ C.c) (he : 0 ≤ e) :
    ((Ciphertext.Mul pk C (e * x + alpha)).Randomize pk (big.Exp 0 rho e pk.n * r % pk.n)).c
      = (Ciphertext.Add pk
          (Ciphertext.Mul pk ((Ciphertext.Mul pk C x).Randomize pk rho) e)
          ((Ciphertext.Mul pk C alpha).Randomize pk r)).c := by
  obtain ⟨n, hn⟩ := Int.eq_ofNat_of_zero_le (le_of_lt hN)
  obtain ⟨k, rfl⟩ := Int.eq_ofNat_of_zero_le he
  have hn0 : n ≠ 0 := by rintro rfl; simp [hn] at hN
  have hM : pk.n * pk.n = ((n * n : Nat) : Int) := by rw [hn]; push_cast; rfl
  have hM0 : n * n ≠ 0 := Nat.mul_ne_zero hn0 hn0
  have hCM : Int.gcd C.c ((n * n : Nat) : Int) = 1 := by
    rw [hn] at hC
    have h1 : IsCoprime C.c (n : Int) := Int.isCoprime_iff_gcd_eq_one.mpr hC
    have h2 : IsCoprime C.c ((n : Int) * (n : Int)) := h1.mul_right h1
    rw [← Int.isCoprime_iff_gcd_eq_one]
    push_cast
    exact h2
  obtain ⟨u, hu, -⟩ := big.exists_unit_of_gcd hCM
  have hnn : (0 : Int) ≤ (n : Int) := Int.natCast_nonneg n
  have hW : ((big.Exp 0 rho k n * r % n : Int) : ZMod (n * n)) ^ n
      = ((rho : ZMod (n * n)) ^ k * r) ^ n := by
    have h : big.Exp 0 rho k n * r % n ≡ rho ^ k * r [ZMOD n] := by
      rw [big.Exp_of_nonneg _ _ _ _ (by exact_mod_cast hn0) he, Int.toNat_natCast]
      exact (Int.mod_modEq _ _).trans ((Int.mod_modEq _ _).mul_right _)
    simpa using big.pow_cast_sq h
  have hz : u ^ ((k : Int) * x + alpha) = (u ^ x) ^ k * u ^ alpha := by
    rw [zpow_add, mul_comm (k : Int) x, zpow_mul, zpow_natCast]
  simp only [Ciphertext.Mul, Ciphertext.Randomize, Ciphertext.Add, hM]
  rw [hn]
  generalize hm : n * n = m at *
  apply (ZMod.intCast_eq_intCast_iff _ _ m).mp
  simp only [Int.cast_mul, ZMod.intCast_mod, big.Exp_cast_unit _ _ _ _ hM0 u hu hCM hC0,
    big.Exp_cast_nonneg _ _ _ _ hM0 hnn, big.Exp_cast_nonneg _ _ _ _ hM0 he, Int.toNat_natCast,
    hW, hz, Units.val_mul, Units.val_pow_eq_pow_val]
  ring

end paillier

namespace zkpedersen

/-- The opening check accepts the honest responses. -/
theorem honest_opening (v : Verifier) (x m alpha gamma e : Int) (hN : 0 < v.N)
    (hs : Int.gcd v.S v.N = 1) (ht : Int.gcd v.T v.N = 1) (hs0 : 0 ≤ v.S) (ht0 : 0 ≤ v.T)
    (he : 0 ≤ e) :
    v.Verify (e * x + alpha) (e * m + gamma) (v.Commit alpha gamma) (v.Commit x m) e = true := by
  obtain ⟨n, hn⟩ := Int.eq_ofNat_of_zero_le (le_of_lt hN)
  obtain ⟨k, rfl⟩ := Int.eq_ofNat_of_zero_le he
  have hn0 : n ≠ 0 := by rintro rfl; simp [hn] at hN
  rw [hn] at hs ht
  obtain ⟨us, hus, -⟩ := big.exists_unit_of_gcd hs
  obtain ⟨ut, hut, -⟩ := big.exists_unit_of_gcd ht
  have hzs : us ^ ((k : Int) * x + alpha) = (us ^ x) ^ k * us ^ alpha := by
    rw [zpow_add, mul_comm (k : Int) x, zpow_mul, zpow_natCast]
  have hzt : ut ^ ((k : Int) * m + gamma) = (ut ^ m) ^ k * ut ^ gamma := by
    rw [zpow_add, mul_comm (k : Int) m, zpow_mul, zpow_natCast]
  simp only [Verifier.Verify, Verifier.Commit, decide_eq_true_eq, hn]
  apply (ZMod.intCast_eq_intCast_iff _ _ n).mp
  simp only [Int.cast_mul, ZMod.intCast_mod, big.Exp_cast_unit _ _ _ _ hn0 us hus hs hs0,
    big.Exp_cast_unit _ _ _ _ hn0 ut hut ht ht0, big.Exp_cast_nonneg _ _ _ _ hn0 he,
    Int.toNat_natCast, hzs, hzt, Units.val_mul, Units.val_pow_eq_pow_val]
  ring

end zkpedersen

namespace zkmulg

/-- Reducing a scalar modulo `q` does not change its multiple of a point that
`q` annihilates. -/
theorem emod_smul {G : Type} [AddCommGroup G] (q : Nat) (P : G) (hq : q • P = 0) (k : Int) :
    (k % (q : Int)) • P = k • P := by
  have h0 : (q : Int) • P = 0 := by rw [natCast_zsmul]; exact hq
  rw [Int.emod_def, sub_smul, mul_comm, mul_smul, h0, smul_zero, sub_zero]

/-- The curve equation holds for the honest response. -/
theorem honest_curve {G : Type} [AddCommGroup G] (env : Env G) (hq : env.q • env.g = 0)
    (x alpha e : Int) :
    ScalarBaseMult env (NewScalarBigInt env (e * x + alpha))
      = ScalarMult (NewScalarBigInt env e) (ScalarBaseMult env (NewScalarBigInt env x))
        + ScalarBaseMult env (NewScalarBigInt env alpha) := by
  simp only [ScalarBaseMult, ScalarMult, NewScalarBigInt, emod_smul _ _ hq]
  have hx : env.q • (x • env.g) = 0 := by
    rw [smul_comm, hq, smul_zero]
  rw [emod_smul _ _ hx, add_smul, mul_smul]

theorem MakeChallengeFq_nonneg {G : Type} (env : Env G) (d : String)
    (vs : List (zkcommon.Value G)) :
    0 ≤ MakeChallengeFq env d vs := by
  unfold MakeChallengeFq
  by_cases h : (env.q : Int) = 0
  · rw [h, Int.emod_zero]; exact Int.natCast_nonneg _
  · exact Int.emod_nonneg _ h

theorem Verify_eq_true_iff {G : Type} [AddCommGroup G] [DecidableEq G] (env : Env G)
    (proof : Proof G) (pk : paillier.PublicKey)
    (ped : zkpedersen.Verifier) (C D : paillier.Ciphertext) (X : G) :
    Verify env proof pk ped C D X = true ↔
      env.IsInInterval proof.response.Z1 env.LPlusEpsilon = true
      ∧ ((paillier.Ciphertext.Mul pk C proof.response.Z1).Randomize pk proof.response.W).Equal
          (paillier.Ciphertext.Add pk
            (paillier.Ciphertext.Mul pk D (proof.commitment.Challenge env))
            proof.commitment.A) = true
      ∧ ScalarBaseMult env (NewScalarBigInt env proof.response.Z1)
          = ScalarMult (NewScalarBigInt env (proof.commitment.Challenge env)) X
            + proof.commitment.Bx
      ∧ ped.Verify proof.response.Z1 proof.response.Z2 proof.commitment.E proof.commitment.S
          (proof.commitment.Challenge env) = true := by
  unfold Verify PointEqual
  cases env.IsInInterval proof.response.Z1 env.LPlusEpsilon <;> simp

theorem xor_two_pow_cases : ∀ (k n : Nat),
    n ^^^ 2 ^ k = n + 2 ^ k ∨ (2 ^ k ≤ n ∧ n ^^^ 2 ^ k = n - 2 ^ k) := by
  intro k
  induction k with
  | zero =>
    intro n
    have h1 : (n ^^^ 2 ^ 0) / 2 = n / 2 := by
      rw [Nat.xor_div_two]; simp
    have h2 : (n ^^^ 2 ^ 0) % 2 = (n + 1) % 2 := by
      rw [Nat.xor_mod_two_eq, pow_zero]
    simp only [pow_zero] at h1 h2 ⊢
    omega
  | succ k ih =>
    intro n
    have h1 : (n ^^^ 2 ^ (k + 1)) / 2 = n / 2 ^^^ 2 ^ k := by
      rw [Nat.xor_div_two, pow_succ, Nat.mul_div_cancel _ (by norm_num)]
    have h2 : (n ^^^ 2 ^ (k + 1)) % 2 = n % 2 := by
      rw [Nat.xor_mod_two_eq, pow_succ]; omega
    have h3 : 2 ^ (k + 1) = 2 * 2 ^ k := by rw [pow_succ]; ring
    rcases ih (n / 2) with h | ⟨hle, h⟩
    · left; rw [h] at h1; omega
    · right; rw [h] at h1; omega

theorem flipBit_sub (z : Int) (k : Nat) :
    flipBit z k - z = 2 ^ k ∨ flipBit z k - z = -2 ^ k := by
  unfold flipBit
  have hz : (z < 0 → z = -(z.natAbs : Int)) ∧ (¬ z < 0 → z = (z.natAbs : Int)) := by omega
  generalize z.natAbs = n at hz
  have hp : ((2 ^ k : Nat) : Int) = 2 ^ k := by push_cast; rfl
  generalize (2 : Int) ^ k = P at hp
  rcases xor_two_pow_cases k n with h | ⟨hle, h⟩ <;> rw [h] <;> split_ifs with hneg <;> omega

theorem mulg_NewProof_eq {G : Type} [AddCommGroup G] (env : Env G) (pk : paillier.PublicKey)
    (ped : zkpedersen.Verifier)
    (C D : paillier.Ciphertext) (X : G) (x rho alpha r gamma m : Int) (hN : pk.n ≠ 0) :
    NewProof env pk ped C D X x rho alpha r gamma m
      = some
        { commitment :=
            { A := (paillier.Ciphertext.Mul pk C alpha).Randomize pk r
              Bx := ScalarBaseMult env (NewScalarBigInt env alpha)
              E := ped.Commit alpha gamma
              S := ped.Commit x m }
          response :=
            { Z1 := Commitment.Challenge env
                  { A := (paillier.Ciphertext.Mul pk C alpha).Randomize pk r
                    Bx := ScalarBaseMult env (NewScalarBigInt env alpha)
                    E := ped.Commit alpha gamma
                    S := ped.Commit x m } * x + alpha
              Z2 := Commitment.Challenge env
                  { A := (paillier.Ciphertext.Mul pk C alpha).Randomize pk r
                    Bx := ScalarBaseMult env (NewScalarBigInt env alpha)
                    E := ped.Commit alpha gamma
                    S := ped.Commit x m } * m + gamma
              W := big.Exp 0 rho (Commitment.Challenge env
                  { A := (paillier.Ciphertext.Mul pk C alpha).Randomize pk r
                    Bx := ScalarBaseMult env (NewScalarBigInt env alpha)
                    E := ped.Commit alpha gamma
                    S := ped.Commit x m }) pk.n * r % pk.n } } := by
  simp only [NewProof, paillier.PublicKey.N, big.Mod_of_ne_zero _ _ hN]

/-- C2 (as amended). For a Paillier key `N0 > 0`, a ciphertext `C` that is a valid
residue modulo `N0²`, a Pedersen setup whose bases are valid residues modulo
`NHat`, a base point that the group order annihilates, every `x`, `rho` with
`X = g^x` and `D = (x ⊙ C)` randomized by `rho`, and every sampled `alpha`, `r`,
`gamma`, `m`: `NewProof` returns a proof whose `Z1` is `e * x + alpha` for its
own challenge `e`, and `Verify` returns `true` on it exactly when that `Z1`
passes the `L + ε` range check. -/
theorem mulg_completeness {G : Type} [AddCommGroup G] [DecidableEq G] (env : Env G)
    (pk : paillier.PublicKey) (ped : zkpedersen.Verifier)
    (C D : paillier.Ciphertext) (X : G) (x rho alpha r gamma m : Int)
    (hN0 : 0 < pk.n) (hC : arith.IsValidModN (pk.n * pk.n) [C.c] = true)
    (hped : arith.IsValidModN ped.N [ped.S, ped.T] = true)
    (hq : env.q • env.g = 0)
    (hX : X = ScalarBaseMult env (NewScalarBigInt env x))
    (hD : D = (paillier.Ciphertext.Mul pk C x).Randomize pk rho) :
    ∃ p, NewProof env pk ped C D X x rho alpha r gamma m = some p
      ∧ p.response.Z1 = p.commitment.Challenge env * x + alpha
      ∧ (Verify env p pk ped C D X = true ↔
          env.IsInInterval (p.commitment.Challenge env * x + alpha) env.LPlusEpsilon = true) := by
  have hC' : Int.gcd C.c pk.n = 1 := by
    have h := (arith.IsValidModN_mem hC (List.mem_singleton_self _)).2.2
    rw [← Int.isCoprime_iff_gcd_eq_one] at h ⊢
    exact h.of_mul_right_left
  have hS := arith.IsValidModN_mem hped (List.mem_cons_self _ _)
  have hT := arith.IsValidModN_mem hped (List.mem_cons_of_mem _ (List.mem_singleton_self _))
  have hNhat : 0 < ped.N := by omega
  refine ⟨_, mulg_NewProof_eq env pk ped C D X x rho alpha r gamma m (ne_of_gt hN0), rfl, ?_⟩
  rw [Verify_eq_true_iff]
  simp only [and_iff_left_iff_imp]
  intro _
  have he := MakeChallengeFq_nonneg env domain
    (Commitment.absorbed
      { A := (paillier.Ciphertext.Mul pk C alpha).Randomize pk r
        Bx := ScalarBaseMult env (NewScalarBigInt env alpha)
        E := ped.Commit alpha gamma
        S := ped.Commit x m })
  refine ⟨?_, ?_, ?_⟩
  · rw [hD]
    simp only [paillier.Ciphertext.Equal, decide_eq_true_eq]
    exact paillier.honest_equation pk C x rho alpha r _ hN0 hC'
      (le_of_lt (arith.IsValidModN_mem hC (List.mem_singleton_self _)).1) he
  · rw [hX]
    exact honest_curve env hq x alpha _
  · exact zkpedersen.honest_opening ped x m alpha gamma _ hNhat hS.2.2 hT.2.2
      (le_of_lt hS.1) (le_of_lt hT.1) he

/-- C2, at a concrete input: `N0 = 15`, `C = 4`, `x = 1`, `rho = 2`, sampled
`alpha = 3`, `r = 7`, `gamma = 2`, `m = 1`. The challenge is `6`, `Z1 = 9` lies
in the interval of width `2 ^ 4` and the proof is accepted. -/
theorem mulg_completeness_witness :
    (∃ p, NewProof toyEnv toyKey toyPedersen toyC toyD 1 1 2 3 7 2 1 = some p
      ∧ p.response.Z1 = p.commitment.Challenge toyEnv * 1 + 3
      ∧ (Verify toyEnv p toyKey toyPedersen toyC toyD 1 = true ↔
          toyEnv.IsInInterval (p.commitment.Challenge toyEnv * 1 + 3) toyEnv.LPlusEpsilon
            = true))
    ∧ (NewProof toyEnv toyKey toyPedersen toyC toyD 1 1 2 3 7 2 1).map
        (fun p => (p.response.Z1, Verify toyEnv p toyKey toyPedersen toyC toyD 1))
        = some (9, true) :=
  ⟨mulg_completeness toyEnv toyKey toyPedersen toyC toyD 1 1 2 3 7 2 1
      (by decide) (by decide) (by decide) (by decide) (by decide) (by decide),
    by decide⟩

/-- C2 as stated fails: with `N0 = 15`, `C = 4`, `x = 1`, `rho = 2` and the
sampled values `alpha = 15 = 2 ^ 4 - 1`, `r = 7`, `gamma = 2`, `m = 2` (all within
their sampling ranges for `L = 1`, `L + ε = 4`) the challenge is `6` and
`Z1 = 15 + 6 * 1 = 21` exceeds `2 ^ 4`: the range check of `Verify` rejects the
honest proof. -/
theorem mulg_completeness_fails :
    ¬ ∀ (G : Type) [AddCommGroup G] [DecidableEq G] (env : Env G) (pk : paillier.PublicKey)
        (ped : zkpedersen.Verifier) (C D : paillier.Ciphertext) (X : G)
        (x rho alpha r gamma m : Int),
        0 < pk.n → arith.IsValidModN (pk.n * pk.n) [C.c] = true →
        arith.IsValidModN ped.N [ped.S, ped.T] = true →
        env.q • env.g = 0 →
        X = ScalarBaseMult env (NewScalarBigInt env x) →
        D = (paillier.Ciphertext.Mul pk C x).Randomize pk rho →
        (∀ (n : Int) (p : Nat), n.natAbs < 2 ^ p → env.IsInInterval n p = true) →
        (∀ (n : Int) (p : Nat), 2 ^ p < n.natAbs → env.IsInInterval n p = false) →
        x.natAbs ≤ 2 ^ env.L →
        (0 ≤ alpha ∧ alpha < 2 ^ env.LPlusEpsilon) →
        gamma.natAbs ≤ 2 ^ env.LPlusEpsilon →
        m.natAbs ≤ 2 ^ env.L →
        (0 < r ∧ r < pk.n ∧ Int.gcd r pk.n = 1) →
        (0 < rho ∧ rho < pk.n ∧ Int.gcd rho pk.n = 1) →
        ∃ p, NewProof env pk ped C D X x rho alpha r gamma m = some p
          ∧ Verify env p pk ped C D X = true := by
  intro h
  have hin : ∀ (n : Int) (p : Nat), n.natAbs < 2 ^ p → toyEnv.IsInInterval n p = true := by
    intro n p hn
    have hp : ((2 ^ p : Nat) : Int) = 2 ^ p := by push_cast; rfl
    simp only [toyEnv, decide_eq_true_eq]
    omega
  have hout : ∀ (n : Int) (p : Nat), 2 ^ p < n.natAbs → toyEnv.IsInInterval n p = false := by
    intro n p hn
    have hp : ((2 ^ p : Nat) : Int) = 2 ^ p := by push_cast; rfl
    simp only [toyEnv, decide_eq_false_iff_not]
    omega
  obtain ⟨p, hp, hv⟩ := h (ZMod 7) toyEnv toyKey toyPedersen toyC toyD 1 1 2 15 7 2 2
    (by decide) (by decide) (by decide) (by decide) (by decide)
    (by decide) hin hout (by decide) (by decide) (by decide) (by decide) (by decide)
    (by decide)
  have e : (NewProof toyEnv toyKey toyPedersen toyC toyD 1 1 2 15 7 2 2).map
      (fun p => (p.commitment.Challenge toyEnv, p.response.Z1,
        Verify toyEnv p toyKey toyPedersen toyC toyD 1)) = some (6, 21, false) := by
    decide
  rw [hp] at e
  simp only [Option.map_some', Option.some_inj, Prod.mk.injEq] at e
  rw [hv] at e
  exact absurd e.2.2 (by decide)

/-- C5. `Verify` returns `true` exactly when, with `e` the challenge of the
commitment `(A, Bx, E, S)`: (a) `Z1` passes the `L + ε` range check,
(b) `(Z1 ⊙ C)` randomized by `W` equals `A + (e ⊙ D)` as ciphertexts,
(c) `g^Z1` equals `e * X + Bx` on the curve, and (d) the Pedersen verifier
accepts `(Z1, Z2, E, S, e)`. In particular `Verify` returns `false` whenever
`Z1` fails the range check, whatever the other fields are. -/
theorem mulg_verify_characterisation {G : Type} [AddCommGroup G] [DecidableEq G]
    (env : Env G) (proof : Proof G)
    (pk : paillier.PublicKey) (ped : zkpedersen.Verifier) (C D : paillier.Ciphertext) (X : G) :
    (Verify env proof pk ped C D X = true ↔
      env.IsInInterval proof.response.Z1 env.LPlusEpsilon = true
      ∧ ((paillier.Ciphertext.Mul pk C proof.response.Z1).Randomize pk proof.response.W).Equal
          (paillier.Ciphertext.Add pk
            (paillier.Ciphertext.Mul pk D (proof.commitment.Challenge env))
            proof.commitment.A) = true
      ∧ PointEqual (ScalarBaseMult env (NewScalarBigInt env proof.response.Z1))
          (ScalarMult (NewScalarBigInt env (proof.commitment.Challenge env)) X
            + proof.commitment.Bx) = 1
      ∧ ped.Verify proof.response.Z1 proof.response.Z2 proof.commitment.E proof.commitment.S
          (proof.commitment.Challenge env) = true)
    ∧ (env.IsInInterval proof.response.Z1 env.LPlusEpsilon = false →
        Verify env proof pk ped C D X = false) := by
  constructor
  · rw [Verify_eq_true_iff]
    simp [PointEqual]
  · intro h
    simp [Verify, h]

/-- C8. The challenge of a commitment is `MakeChallengeFq` applied to the domain
tag `"CMP-MULG"` and to `A, Bx, E, S` in this order; proofs with the same
commitment have the same challenge whatever their responses are; and the
responses `NewProof` returns are computed with the challenge `Verify` recomputes
from the returned proof. -/
theorem mulg_challenge_reads_commitment {G : Type} [AddCommGroup G] (env : Env G) :
    (∀ c : Commitment G,
      c.Challenge env
        = MakeChallengeFq env "CMP-MULG"
            [.ciphertext c.A, .point c.Bx, .int c.E, .int c.S])
    ∧ (∀ (c : Commitment G) (resp resp' : Response),
        ({ commitment := c, response := resp } : Proof G).commitment.Challenge env
          = ({ commitment := c, response := resp' } : Proof G).commitment.Challenge env)
    ∧ (∀ (pk : paillier.PublicKey) (ped : zkpedersen.Verifier) (C D : paillier.Ciphertext)
        (X : G) (x rho alpha r gamma m : Int) (p : Proof G),
        NewProof env pk ped C D X x rho alpha r gamma m = some p →
          p.response.Z1 = p.commitment.Challenge env * x + alpha
          ∧ p.response.Z2 = p.commitment.Challenge env * m + gamma
          ∧ big.Mod (big.Exp 0 rho (p.commitment.Challenge env) pk.N * r) pk.N
              = some p.response.W)
    ∧ (∀ (pk : paillier.PublicKey) (ped : zkpedersen.Verifier) (C D : paillier.Ciphertext)
        (X : G) (x rho alpha r gamma m : Int), pk.N ≠ 0 →
        ∃ p, NewProof env pk ped C D X x rho alpha r gamma m = some p) := by
  refine ⟨fun c => rfl, fun c _ _ => rfl, ?_, ?_⟩
  · intro pk ped C D X x rho alpha r gamma m p hp
    simp only [NewProof] at hp
    split at hp
    · exact absurd hp (by simp)
    · rename_i w hw
      rw [Option.some_inj] at hp
      subst hp
      exact ⟨rfl, rfl, hw⟩
  · intro pk ped C D X x rho alpha r gamma m hN
    exact ⟨_, mulg_NewProof_eq env pk ped C D X x rho alpha r gamma m hN⟩

/-- C6. When the curve group has an odd prime order `q` which is the order of
the base point, and a proof verifies against a statement, the proof with bit
`k` of `|Z1|` flipped (all other fields unchanged) does not verify against the
same statement, for every bit position `k`. -/
theorem mulg_flip_Z1_rejected {G : Type} [AddCommGroup G] [DecidableEq G] (env : Env G)
    (hq : Nat.Prime env.q) (hodd : env.q ≠ 2) (hg : addOrderOf env.g = env.q)
    (proof : Proof G) (pk : paillier.PublicKey) (ped : zkpedersen.Verifier)
    (C D : paillier.Ciphertext) (X : G) (hv : Verify env proof pk ped C D X = true)
    (k : Nat) :
    Verify env (proof.flipZ1 k) pk ped C D X = false := by
  rw [Bool.eq_false_iff]
  intro hv'
  have h1 := ((Verify_eq_true_iff env proof pk ped C D X).mp hv).2.2.1
  have h2 := ((Verify_eq_true_iff env (proof.flipZ1 k) pk ped C D X).mp hv').2.2.1
  have hq0 : env.q • env.g = 0 := by rw [← hg]; exact addOrderOf_nsmul_eq_zero _
  simp only [Proof.flipZ1] at h2
  rw [← h1] at h2
  simp only [ScalarBaseMult, NewScalarBigInt, emod_smul _ _ hq0] at h2
  have h3 : (flipBit proof.response.Z1 k - proof.response.Z1) • env.g = 0 := by
    rw [sub_smul, h2, sub_self]
  have h4 : (env.q : Int) ∣ flipBit proof.response.Z1 k - proof.response.Z1 := by
    rw [← hg]; exact (addOrderOf_dvd_iff_zsmul_eq_zero).mpr h3
  have h5 : (env.q : Int) ∣ 2 ^ k := by
    rcases flipBit_sub proof.response.Z1 k with h | h
    · rw [h] at h4; exact h4
    · rw [h] at h4; exact (dvd_neg.mp h4)
  have h6 : env.q ∣ 2 ^ k := by exact_mod_cast h5
  have h7 : env.q ∣ 2 := hq.dvd_of_dvd_pow h6
  exact hodd ((Nat.prime_dvd_prime_iff_eq hq Nat.prime_two).mp h7)

/-- C6, at a concrete input: the proof `toyProof`, which `NewProof` returns,
verifies, and with bit `0` of `Z1 = 9` flipped (`Z1 = 8`) it does not. -/
theorem mulg_flip_Z1_rejected_witness :
    NewProof toyEnv toyKey toyPedersen toyC toyD 1 1 2 3 7 2 1 = some toyProof
    ∧ Verify toyEnv toyProof toyKey toyPedersen toyC toyD 1 = true
    ∧ (toyProof.flipZ1 0).response.Z1 = 8
    ∧ Verify toyEnv (toyProof.flipZ1 0) toyKey toyPedersen toyC toyD 1 = false :=
  ⟨by decide, by decide, by decide,
    mulg_flip_Z1_rejected toyEnv (by decide) (by decide) (ZMod.addOrderOf_one 7)
      toyProof toyKey toyPedersen toyC toyD 1 (by decide) 0⟩

/-- C7 (as amended). For `mulg` the challenge binds the commitment only.
`Verify` and `NewProof` consult the hash at one input, the domain tag
`"CMP-MULG"` followed by the commitment values `A, Bx, E, S`: when two hash
functions `h`, `h'` agree on that input, `Verify` returns the same result under
both against every statement `(C, D, X)`, and a proof that `NewProof` returns
under `h` is returned under `h'` as well. The statement is not part of the
input: it may differ from `h` to `h'` on every list that holds `C`, `D` or `X`. -/
theorem mulg_challenge_binds_commitment_only {G : Type} [AddCommGroup G] [DecidableEq G]
    (env : Env G) (h h' : String → List (zkcommon.Value G) → Nat) (proof : Proof G)
    (hh : h "CMP-MULG" [.ciphertext proof.commitment.A, .point proof.commitment.Bx,
            .int proof.commitment.E, .int proof.commitment.S]
        = h' "CMP-MULG" [.ciphertext proof.commitment.A, .point proof.commitment.Bx,
            .int proof.commitment.E, .int proof.commitment.S]) :
    (∀ (pk : paillier.PublicKey) (ped : zkpedersen.Verifier) (C D : paillier.Ciphertext) (X : G),
      Verify { env with hash := h } proof pk ped C D X
        = Verify { env with hash := h' } proof pk ped C D X)
    ∧ (∀ (pk : paillier.PublicKey) (ped : zkpedersen.Verifier) (C D : paillier.Ciphertext) (X : G)
        (x rho alpha r gamma m : Int),
        NewProof { env with hash := h } pk ped C D X x rho alpha r gamma m = some proof →
        NewProof { env with hash := h' } pk ped C D X x rho alpha r gamma m = some proof) := by
  refine ⟨?_, ?_⟩
  · intro pk ped C D X
    have he : proof.commitment.Challenge { env with hash := h }
        = proof.commitment.Challenge { env with hash := h' } := by
      simp only [Commitment.Challenge, MakeChallengeFq, Commitment.absorbed, domain, hh]
    simp only [Verify, he, ScalarBaseMult, NewScalarBigInt]
  · intro pk ped C D X x rho alpha r gamma m hp
    have hc : proof.commitment =
        { A := (paillier.Ciphertext.Mul pk C alpha).Randomize pk r
          Bx := ScalarBaseMult env (NewScalarBigInt env alpha)
          E := ped.Commit alpha gamma
          S := ped.Commit x m } := by
      simp only [NewProof] at hp
      split at hp
      · exact absurd hp (by simp)
      · rw [← Option.some.inj hp]
        rfl
    rw [hc] at hh
    simp only [NewProof, Commitment.Challenge, MakeChallengeFq, Commitment.absorbed, domain,
      ScalarBaseMult, NewScalarBigInt] at hp hh ⊢
    rw [← hh]
    exact hp

/-- C7 (as amended), at a concrete input: the hash `toyOtherHash` agrees with
that of `toyEnv` on the commitment of `toyProof` and differs from it on the list
that holds the statement `(4, 122, 1)` before the commitment; `toyProof` is
accepted under both against the statement `(4, 122, 1)`, rejected under both
against `(11, 7, 2)`, and `NewProof` returns it under both. -/
theorem mulg_challenge_binds_commitment_only_witness :
    toyEnv.hash "CMP-MULG" [.ciphertext { c := 127 }, .point 3, .int 2, .int 6]
      = toyOtherHash "CMP-MULG" [.ciphertext { c := 127 }, .point 3, .int 2, .int 6]
    ∧ toyEnv.hash "CMP-MULG" [.ciphertext toyC, .ciphertext toyD, .point 1,
          .ciphertext { c := 127 }, .point 3, .int 2, .int 6]
        ≠ toyOtherHash "CMP-MULG" [.ciphertext toyC, .ciphertext toyD, .point 1,
          .ciphertext { c := 127 }, .point 3, .int 2, .int 6]
    ∧ Verify { toyEnv with hash := toyOtherHash } toyProof toyKey toyPedersen toyC toyD 1 = true
    ∧ Verify { toyEnv with hash := toyOtherHash } toyProof toyKey toyPedersen
        { c := 11 } { c := 7 } 2 = false
    ∧ NewProof { toyEnv with hash := toyOtherHash } toyKey toyPedersen toyC toyD 1 1 2 3 7 2 1
        = some toyProof := by
  have h := mulg_challenge_binds_commitment_only toyEnv toyEnv.hash toyOtherHash toyProof
    (by decide)
  refine ⟨by decide, by decide, ?_, ?_, ?_⟩
  · rw [← h.1]
    decide
  · rw [← h.1]
    decide
  · exact h.2 toyKey toyPedersen toyC toyD 1 1 2 3 7 2 1 (by decide)

/-- C7 as stated fails: `toyProof` is accepted against the statement
`(C, D, X) = (4, 122, 1)`, and no list of values that holds `C`, `D` or `X` is
the input at which `Verify` consults the hash. The hash `toyFlippedHash` agrees
with that of `toyEnv` on every such list (it differs from it on the commitment
`127, 3, 2, 6` alone), and `Verify` rejects `toyProof` under it. -/
theorem mulg_challenge_binds_statement_fails :
    Verify toyEnv toyProof toyKey toyPedersen toyC toyD 1 = true
    ∧ toyC = { c := 4 } ∧ toyD = { c := 122 }
    ∧ ¬ ∃ vals : List (zkcommon.Value (ZMod 7)),
        (.ciphertext toyC ∈ vals ∨ .ciphertext toyD ∈ vals ∨ .point 1 ∈ vals)
        ∧ ∀ h h' : String → List (zkcommon.Value (ZMod 7)) → Nat,
            h "CMP-MULG" vals = h' "CMP-MULG" vals →
            Verify { toyEnv with hash := h } toyProof toyKey toyPedersen toyC toyD 1
              = Verify { toyEnv with hash := h' } toyProof toyKey toyPedersen toyC toyD 1 := by
  refine ⟨by decide, by decide, by decide, ?_⟩
  rintro ⟨vals, hmem, hall⟩
  have hne : vals ≠ toyProof.commitment.absorbed := by
    rintro rfl
    revert hmem
    decide
  have := hall toyEnv.hash toyFlippedHash (by simp [toyFlippedHash, hne])
  revert this
  decide

end zkmulg

/-! ## Further claims on `prm` -/

namespace big

theorem Exp_of_nonneg_exponent (z x y m : Int) (hy : 0 ≤ y) :
    Exp z x y m = x ^ y.toNat % m := by
  by_cases hm : m = 0
  · subst hm
    by_cases h0 : y ≤ 0
    · have : y = 0 := le_antisymm h0 hy
      subst this
      simp [Exp]
    · simp [Exp, h0]
  · exact Exp_of_nonneg z x y m hm hy

end big

namespace zkprm

theorem honestA_getElem_opt (env : Env) (pub : Public) (priv : Private) (sample : Nat → Int)
    (i : Nat) (hi : i < env.StatParam) :
    (honestA env pub priv sample)[i]?
      = some (big.Exp 0 pub.Pedersen.T (sample i % priv.Phi) pub.Pedersen.N) := by
  simp [honestA, List.getElem?_map, List.getElem?_range hi]

theorem honestZ_getElem_opt (env : Env) (priv : Private) (sample : Nat → Int) (es : List Bool)
    (i : Nat) (hi : i < env.StatParam) :
    (honestZ env priv sample es)[i]?
      = some (if es.getD i false then (sample i % priv.Phi + priv.Lambda) % priv.Phi
        else sample i % priv.Phi) := by
  simp [honestZ, List.getElem?_map, List.getElem?_range hi]

/-- C11. For a non-zero `phi`, `NewProof` returns a proof whose vectors satisfy,
in every round `i < StatParam`, with `a_i` the sample reduced modulo `phi` and
`e` the challenge derived from `(N, s, t, A)`: `A_i = t ^ a_i mod N`, and
`Z_i = a_i` when `e_i` is false, `Z_i = (a_i + lambda) mod phi` when it is
true. -/
theorem prm_response_rule (env : Env) (hash : env.Hash) (pub : Public) (priv : Private)
    (sample : Nat → Int) (hphi : priv.Phi ≠ 0) :
    ∃ A Z es, NewProof env hash pub priv sample = some { A := some A, Z := some Z }
      ∧ challenge env hash pub A = some es
      ∧ ∀ i, i < env.StatParam →
          A[i]? = some (pub.Pedersen.T ^ (sample i % priv.Phi).toNat % pub.Pedersen.N)
          ∧ Z[i]? = some (if es.getD i false then (sample i % priv.Phi + priv.Lambda) % priv.Phi
              else sample i % priv.Phi) := by
  refine ⟨_, _, _, prm_NewProof_eq env hash pub priv sample hphi, challenge_eq _ _ _ _, ?_⟩
  intro i hi
  refine ⟨?_, honestZ_getElem_opt _ _ _ _ _ hi⟩
  rw [honestA_getElem_opt _ _ _ _ _ hi,
    big.Exp_of_nonneg_exponent _ _ _ _ (Int.emod_nonneg _ hphi)]

/-- C11, at a concrete input: three rounds over `N = 15`, `t = 2`, `lambda = 3`,
`phi = 8`, samples `9, 10, 11` (reduced: `1, 2, 3`); the challenge is
`[true, false, true]`. -/
theorem prm_response_rule_witness :
    (∃ A Z es, NewProof (toyEnv 3) [] toyPublic toyPrivate (fun i => 9 + i)
        = some { A := some A, Z := some Z }
      ∧ challenge (toyEnv 3) [] toyPublic A = some es
      ∧ ∀ i, i < (toyEnv 3).StatParam →
          A[i]? = some (toyPublic.Pedersen.T ^ ((9 + i : Int) % toyPrivate.Phi).toNat
            % toyPublic.Pedersen.N)
          ∧ Z[i]? = some (if es.getD i false then
                ((9 + i : Int) % toyPrivate.Phi + toyPrivate.Lambda) % toyPrivate.Phi
              else (9 + i : Int) % toyPrivate.Phi))
    ∧ NewProof (toyEnv 3) [] toyPublic toyPrivate (fun i => 9 + i)
        = some { A := some [2, 4, 8], Z := some [4, 2, 6] }
    ∧ challenge (toyEnv 3) [] toyPublic [2, 4, 8] = some [true, false, true] :=
  ⟨prm_response_rule (toyEnv 3) [] toyPublic toyPrivate (fun i => 9 + i) (by decide),
    by decide, by decide⟩

/-- C14 (as amended). `Verify` returns `false` on every proof whose `A` is
present with a length other than `StatParam` (whatever `Z` is, present or not)
and on every proof with both vectors present whose `Z` has a length other than
`StatParam`; and on a proof that passes `IsValid` both vectors are present, the
vectors, the challenge and the buffer `tmpBytes` have `StatParam` entries, so
that every index `i < StatParam` is within their bounds, `challenge` returns and
`Verify` returns a boolean. -/
theorem prm_structural_failure (env : Env) (hash : env.Hash) (pub : Public) :
    (∀ (A : List Int) (Z : Option (List Int)), A.length ≠ env.StatParam →
      Verify env hash { A := some A, Z := Z } pub = some false)
    ∧ (∀ A Z : List Int, Z.length ≠ env.StatParam →
      Verify env hash { A := some A, Z := some Z } pub = some false)
    ∧ (∀ p : Proof, IsValid env p pub = some true →
        ∃ A Z es, p.A = some A ∧ p.Z = some Z
          ∧ challenge env hash pub A = some es
          ∧ (readBuffer env (absorb env hash pub A) env.StatParam).length = env.StatParam
          ∧ (∀ i, i < env.StatParam →
              (∃ a, A[i]? = some a) ∧ (∃ z, Z[i]? = some z) ∧ (∃ e, es[i]? = some e)
              ∧ ∃ b, (readBuffer env (absorb env hash pub A) env.StatParam)[i]? = some b)
          ∧ ∃ b, Verify env hash p pub = some b) := by
  refine ⟨?_, ?_, ?_⟩
  · intro A Z hA
    simp [Verify, IsValid, hA]
  · intro A Z hZ
    rw [Verify_eq_accepts]
    simp [accepts, hZ]
  · intro p hp
    obtain ⟨A, Z⟩ := p
    cases A with
    | none => simp [IsValid] at hp
    | some A =>
      by_cases hA : A.length = env.StatParam
      swap
      · simp [IsValid, hA] at hp
      cases Z with
      | none => simp [IsValid, hA] at hp
      | some Z =>
        by_cases hZ : Z.length = env.StatParam
        swap
        · simp [IsValid, hA, hZ] at hp
        refine ⟨A, Z, _, rfl, rfl, challenge_eq env hash pub A, readBuffer_length _ _ _, ?_,
          ⟨_, Verify_eq_accepts env hash A Z pub⟩⟩
        intro i hi
        refine ⟨⟨A[i], List.getElem?_eq_getElem (by omega)⟩,
          ⟨Z[i], List.getElem?_eq_getElem (by omega)⟩,
          ⟨_, List.getElem?_eq_getElem (by rw [challengeBits_length]; exact hi)⟩,
          ⟨_, List.getElem?_eq_getElem (by rw [readBuffer_length]; exact hi)⟩⟩

/-- C14 as stated fails: on a proof whose vector `A` is absent, and on a proof
whose `A` has `StatParam` entries and whose `Z` is absent, `Verify` dereferences
the `nil` vector in `IsValid` and aborts; it does not return `false`. -/
theorem prm_absent_vector_aborts :
    Verify (toyEnv 2) [] { A := none, Z := some [4, 1] } toyPublic = none
    ∧ Verify (toyEnv 2) [] { A := none, Z := some [4, 1] } toyPublic ≠ some false
    ∧ Verify (toyEnv 2) [] { A := some [2, 2], Z := none } toyPublic = none
    ∧ Verify (toyEnv 2) [] { A := some [2, 2], Z := none } toyPublic ≠ some false := by
  decide

/-- C16. For `N > 1`, `phi > 0` with `t ^ phi = 1 (mod N)` (so `t` is a unit),
`lambda ≥ 0` and `s = t ^ lambda mod N`, every sampled integer `a` and either
challenge bit `e`: the prover's `Mod` calls return, and with
`A = t ^ (a mod phi) mod N` and `Z = a mod phi` (`e` false) or
`Z = (a mod phi + lambda) mod phi` (`e` true), the verifier's `lhs.Exp(t, Z, N)`
equals `A` when `e` is false and `(A * s) mod N` when `e` is true. -/
theorem prm_honest_round (N s t lam phi a lhs : Int) (e : Bool) (hN : 1 < N) (hphi : 0 < phi)
    (h1 : t ^ phi.toNat ≡ 1 [ZMOD N]) (hl : 0 ≤ lam) (hs : s = t ^ lam.toNat % N) :
    big.Mod a phi = some (a % phi)
    ∧ big.Mod (a % phi + lam) phi = some ((a % phi + lam) % phi)
    ∧ big.Exp 0 t (a % phi) N = t ^ (a % phi).toNat % N
    ∧ big.Exp lhs t (if e then (a % phi + lam) % phi else a % phi) N
        = t ^ (if e then (a % phi + lam) % phi else a % phi).toNat % N
    ∧ big.Mod (big.Exp 0 t (a % phi) N * s) N = some (big.Exp 0 t (a % phi) N * s % N)
    ∧ big.Exp lhs t (if e then (a % phi + lam) % phi else a % phi) N
        = if e then big.Exp 0 t (a % phi) N * s % N else big.Exp 0 t (a % phi) N := by
  have hN0 : N ≠ 0 := by omega
  have hp0 : phi ≠ 0 := ne_of_gt hphi
  have ha : 0 ≤ a % phi := Int.emod_nonneg _ hp0
  have hz : 0 ≤ (a % phi + lam) % phi := Int.emod_nonneg _ hp0
  refine ⟨big.Mod_of_ne_zero _ _ hp0, big.Mod_of_ne_zero _ _ hp0,
    big.Exp_of_nonneg _ _ _ _ hN0 ha, ?_, big.Mod_of_ne_zero _ _ hN0, ?_⟩
  · cases e
    · exact big.Exp_of_nonneg _ _ _ _ hN0 ha
    · exact big.Exp_of_nonneg _ _ _ _ hN0 hz
  · cases e
    · simp only [Bool.false_eq_true, if_false, big.Exp_of_nonneg _ _ _ _ hN0 ha]
    · simp only [if_true, big.Exp_of_nonneg _ _ _ _ hN0 ha, big.Exp_of_nonneg _ _ _ _ hN0 hz, hs]
      exact honest_true_round ha hl hphi h1

/-- C16, at a concrete input: `N = 15`, `t = 2`, `phi = 8` (`2 ^ 8 = 256 = 1 mod
15`), `lambda = 3`, `s = 8`, sample `a = 22` (reduced `6`) and challenge bit
true: `A = 2 ^ 6 mod 15 = 4`, `Z = (6 + 3) mod 8 = 1` and `2 ^ 1 = 4 * 8 mod 15`. -/
theorem prm_honest_round_witness :
    (big.Mod 22 8 = some (22 % 8)
    ∧ big.Mod (22 % 8 + 3) 8 = some ((22 % 8 + 3) % 8)
    ∧ big.Exp 0 2 (22 % 8) 15 = 2 ^ ((22 : Int) % 8).toNat % 15
    ∧ big.Exp 7 2 (if true then (22 % 8 + 3) % 8 else 22 % 8) 15
        = 2 ^ (if true then ((22 : Int) % 8 + 3) % 8 else 22 % 8).toNat % 15
    ∧ big.Mod (big.Exp 0 2 (22 % 8) 15 * 8) 15 = some (big.Exp 0 2 (22 % 8) 15 * 8 % 15)
    ∧ big.Exp 7 2 (if true then (22 % 8 + 3) % 8 else 22 % 8) 15
        = if true then big.Exp 0 2 (22 % 8) 15 * 8 % 15 else big.Exp 0 2 (22 % 8) 15)
    ∧ big.Exp 0 2 (22 % 8) 15 = 4 ∧ ((22 : Int) % 8 + 3) % 8 = 1
    ∧ big.Exp 7 2 1 15 = 2 :=
  ⟨prm_honest_round 15 8 2 3 8 22 7 true (by decide) (by decide) (by decide) (by decide)
      (by decide),
    by decide, by decide, by decide⟩

/-- C19. For `N > 0` and `phi > 0`, whatever `lambda` and the samples are,
`NewProof` returns a proof with `StatParam` entries in `A` and in `Z`, every
`Z_i` in `[0, phi)` and every `A_i` in `[0, N)`; its `A` is the vector the first
loop computed from the reduced samples `a_i`, unchanged by the second loop:
`A_i = t ^ a_i mod N`. -/
theorem prm_output_shape (env : Env) (hash : env.Hash) (pub : Public) (priv : Private)
    (sample : Nat → Int) (hN : 0 < pub.Pedersen.N) (hphi : 0 < priv.Phi) :
    ∃ A Z, NewProof env hash pub priv sample = some { A := some A, Z := some Z }
      ∧ A.length = env.StatParam ∧ Z.length = env.StatParam
      ∧ (∀ z ∈ Z, 0 ≤ z ∧ z < priv.Phi)
      ∧ (∀ a ∈ A, 0 ≤ a ∧ a < pub.Pedersen.N)
      ∧ (∃ a, commit pub priv.Phi sample (List.range env.StatParam) = some (a, A)
          ∧ a = (List.range env.StatParam).map (fun i => sample i % priv.Phi))
      ∧ ∀ i, i < env.StatParam →
          A[i]? = some (pub.Pedersen.T ^ (sample i % priv.Phi).toNat % pub.Pedersen.N) := by
  have hp0 : priv.Phi ≠ 0 := ne_of_gt hphi
  have hN0 : pub.Pedersen.N ≠ 0 := ne_of_gt hN
  refine ⟨_, _, prm_NewProof_eq env hash pub priv sample hp0, by simp [honestA],
    by simp [honestZ], ?_, ?_, ⟨_, commit_eq pub priv.Phi sample hp0 _, rfl⟩, ?_⟩
  · intro z hz
    simp only [honestZ, List.mem_map, List.mem_range] at hz
    obtain ⟨i, -, rfl⟩ := hz
    split
    · exact ⟨Int.emod_nonneg _ hp0, Int.emod_lt_of_pos _ hphi⟩
    · exact ⟨Int.emod_nonneg _ hp0, Int.emod_lt_of_pos _ hphi⟩
  · intro a ha
    simp only [honestA, List.mem_map, List.mem_range] at ha
    obtain ⟨i, -, rfl⟩ := ha
    rw [big.Exp_of_nonneg _ _ _ _ hN0 (Int.emod_nonneg _ hp0)]
    exact ⟨Int.emod_nonneg _ hN0, Int.emod_lt_of_pos _ hN⟩
  · intro i hi
    rw [honestA_getElem_opt _ _ _ _ _ hi,
      big.Exp_of_nonneg _ _ _ _ hN0 (Int.emod_nonneg _ hp0)]

/-- C19, at a concrete input: three rounds over `N = 15`, `t = 2`, `phi = 8` with
the negative `lambda = -3` and the samples `-1, 0, 1` (reduced: `7, 0, 1`). -/
theorem prm_output_shape_witness :
    (∃ A Z, NewProof (toyEnv 3) [] toyPublic { Lambda := -3, Phi := 8 } (fun i => (i : Int) - 1)
        = some { A := some A, Z := some Z }
      ∧ A.length = (toyEnv 3).StatParam ∧ Z.length = (toyEnv 3).StatParam
      ∧ (∀ z ∈ Z, 0 ≤ z ∧ z < 8)
      ∧ (∀ a ∈ A, 0 ≤ a ∧ a < toyPublic.Pedersen.N)
      ∧ (∃ a, commit toyPublic 8 (fun i => (i : Int) - 1) (List.range (toyEnv 3).StatParam)
            = some (a, A)
          ∧ a = (List.range (toyEnv 3).StatParam).map (fun i => ((i : Int) - 1) % 8))
      ∧ ∀ i, i < (toyEnv 3).StatParam →
          A[i]? = some (toyPublic.Pedersen.T ^ (((i : Int) - 1) % 8).toNat
            % toyPublic.Pedersen.N))
    ∧ NewProof (toyEnv 3) [] toyPublic { Lambda := -3, Phi := 8 } (fun i => (i : Int) - 1)
        = some { A := some [8, 1, 2], Z := some [7, 5, 1] } :=
  ⟨prm_output_shape (toyEnv 3) [] toyPublic { Lambda := -3, Phi := 8 } (fun i => (i : Int) - 1)
      (by decide) (by decide),
    by decide⟩

/-- C20. If `Z ≥ 0` passes the round check of `Verify` for the challenge bit
false (`lhs.Exp(t, Z, N)` equals `A_i`) and `Z' ≥ 0` passes it for the bit true
(`lhs.Exp(t, Z', N)` equals `A_i * s mod N`), then
`t ^ Z' = s * t ^ Z (mod N)`; hence, when `t` is a unit modulo `N` and
`Z ≤ Z'`, `s = t ^ (Z' - Z) (mod N)`. -/
theorem prm_round_special_soundness (N s t a Z Z' lhs lhs' : Int) (hZ : 0 ≤ Z) (hZ' : 0 ≤ Z')
    (h0 : big.Exp lhs t Z N = a) (h1 : big.Exp lhs' t Z' N = a * s % N) :
    t ^ Z'.toNat ≡ s * t ^ Z.toNat [ZMOD N]
    ∧ (Int.gcd t N = 1 → Z ≤ Z' → s ≡ t ^ (Z' - Z).toNat [ZMOD N]) := by
  rw [big.Exp_of_nonneg_exponent _ _ _ _ hZ] at h0
  rw [big.Exp_of_nonneg_exponent _ _ _ _ hZ'] at h1
  have e0 : t ^ Z.toNat ≡ a [ZMOD N] := by
    have := Int.mod_modEq (t ^ Z.toNat) N
    rw [h0] at this
    exact this.symm
  have e1 : t ^ Z'.toNat ≡ a * s [ZMOD N] := by
    have := Int.mod_modEq (t ^ Z'.toNat) N
    rw [h1] at this
    exact this.symm.trans (Int.mod_modEq _ _)
  have key : t ^ Z'.toNat ≡ s * t ^ Z.toNat [ZMOD N] := by
    refine e1.trans ?_
    rw [mul_comm]
    exact (e0.symm).mul_left s
  refine ⟨key, ?_⟩
  intro ht hZZ
  obtain ⟨u, v, huv⟩ := Int.isCoprime_iff_gcd_eq_one.mpr ht
  have hut : t * u ≡ 1 [ZMOD N] := by
    apply Int.modEq_iff_dvd.mpr
    exact ⟨v, by linarith⟩
  have hsplit : Z'.toNat = (Z' - Z).toNat + Z.toNat := by omega
  rw [hsplit, pow_add] at key
  have h2 := key.mul_right (u ^ Z.toNat)
  have h3 : t ^ Z.toNat * u ^ Z.toNat ≡ 1 [ZMOD N] := by
    rw [← mul_pow]
    simpa using hut.pow Z.toNat
  have h4 : t ^ (Z' - Z).toNat * t ^ Z.toNat * u ^ Z.toNat ≡ t ^ (Z' - Z).toNat [ZMOD N] := by
    rw [mul_assoc]
    simpa using h3.mul_left (t ^ (Z' - Z).toNat)
  have h5 : s * t ^ Z.toNat * u ^ Z.toNat ≡ s [ZMOD N] := by
    rw [mul_assoc]
    simpa using h3.mul_left s
  exact h5.symm.trans (h2.symm.trans h4)

/-- C20, at a concrete input: `N = 15`, `t = 2`, `s = 8`, `A_i = 2`; `Z = 1`
passes for the bit false, `Z' = 4` for the bit true, and `8 = 2 ^ (4 - 1)`. -/
theorem prm_round_special_soundness_witness :
    (big.Exp 0 2 1 15 = 2 ∧ big.Exp 2 2 4 15 = 2 * 8 % 15)
    ∧ ((2 : Int) ^ (4 : Int).toNat ≡ 8 * 2 ^ (1 : Int).toNat [ZMOD 15]
      ∧ (Int.gcd 2 15 = 1 → (1 : Int) ≤ 4 →
          (8 : Int) ≡ 2 ^ ((4 : Int) - 1).toNat [ZMOD 15]))
    ∧ (8 : Int) % 15 = 2 ^ 3 % 15 :=
  ⟨by decide,
    prm_round_special_soundness 15 8 2 2 1 4 0 2 (by decide) (by decide) (by decide)
      (by decide),
    by decide⟩

end zkprm

/-! ## Further claims on `mulg` -/

namespace paillier

/-- The ciphertext equation of `mulg` for non-negative exponents, for any
residue `C`. -/
theorem honest_equation_nonneg (pk : PublicKey) (C : Ciphertext) (x rho alpha r e : Int)
    (hN : 0 < pk.n) (ha : 0 ≤ alpha) (hx : 0 ≤ x) (he : 0 ≤ e) :
    ((Ciphertext.Mul pk C (e * x + alpha)).Randomize pk (big.Exp 0 rho e pk.n * r % pk.n)).c
      = (Ciphertext.Add pk
          (Ciphertext.Mul pk ((Ciphertext.Mul pk C x).Randomize pk rho) e)
          ((Ciphertext.Mul pk C alpha).Randomize pk r)).c := by
  obtain ⟨n, hn⟩ := Int.eq_ofNat_of_zero_le (le_of_lt hN)
  obtain ⟨k, rfl⟩ := Int.eq_ofNat_of_zero_le he
  obtain ⟨a, rfl⟩ := Int.eq_ofNat_of_zero_le ha
  obtain ⟨y, rfl⟩ := Int.eq_ofNat_of_zero_le hx
  have hn0 : n ≠ 0 := by rintro rfl; simp [hn] at hN
  have hM : pk.n * pk.n = ((n * n : Nat) : Int) := by rw [hn]; push_cast; rfl
  have hM0 : n * n ≠ 0 := Nat.mul_ne_zero hn0 hn0
  have hnn : (0 : Int) ≤ (n : Int) := Int.natCast_nonneg n
  have hz : (0 : Int) ≤ (k : Int) * (y : Int) + (a : Int) := by positivity
  have hzt : ((k : Int) * (y : Int) + (a : Int)).toNat = k * y + a := by
    have : (k : Int) * (y : Int) + (a : Int) = ((k * y + a : Nat) : Int) := by push_cast; rfl
    rw [this, Int.toNat_natCast]
  have hW : ((big.Exp 0 rho k n * r % n : Int) : ZMod (n * n)) ^ n
      = ((rho : ZMod (n * n)) ^ k * r) ^ n := by
    have h : big.Exp 0 rho k n * r % n ≡ rho ^ k * r [ZMOD n] := by
      rw [big.Exp_of_nonneg _ _ _ _ (by exact_mod_cast hn0) he, Int.toNat_natCast]
      exact (Int.mod_modEq _ _).trans ((Int.mod_modEq _ _).mul_right _)
    simpa using big.pow_cast_sq h
  simp only [Ciphertext.Mul, Ciphertext.Randomize, Ciphertext.Add, hM]
  rw [hn]
  generalize hm : n * n = m at *
  apply (ZMod.intCast_eq_intCast_iff _ _ m).mp
  simp only [Int.cast_mul, ZMod.intCast_mod, big.Exp_cast_nonneg _ _ _ _ hM0 hz,
    big.Exp_cast_nonneg _ _ _ _ hM0 hnn, big.Exp_cast_nonneg _ _ _ _ hM0 he,
    big.Exp_cast_nonneg _ _ _ _ hM0 ha, big.Exp_cast_nonneg _ _ _ _ hM0 hx,
    Int.toNat_natCast, hzt, hW]
  ring

end paillier

namespace zkmulg

/-- C12. For a non-zero Paillier modulus `N0`, every other input and every
sampled `alpha`, `r`, `gamma`, `m`: `NewProof` returns a proof with the
commitment `A = (alpha ⊙ C)` randomized by `r`, `Bx = g^alpha`,
`E = Commit(alpha, gamma)`, `S = Commit(x, m)` and, for `e ≥ 0` the challenge of
this commitment, the responses `Z1 = alpha + e * x` and `Z2 = gamma + e * m` as
unreduced integers and `W = (r * rho ^ e) mod N0`. -/
theorem mulg_response_formulas {G : Type} [AddCommGroup G] (env : Env G)
    (pk : paillier.PublicKey) (ped : zkpedersen.Verifier) (C D : paillier.Ciphertext) (X : G)
    (x rho alpha r gamma m : Int) (hN : pk.N ≠ 0) :
    ∃ p, NewProof env pk ped C D X x rho alpha r gamma m = some p
      ∧ p.commitment.A = (paillier.Ciphertext.Mul pk C alpha).Randomize pk r
      ∧ p.commitment.Bx = ScalarBaseMult env (NewScalarBigInt env alpha)
      ∧ (env.q • env.g = 0 → p.commitment.Bx = alpha • env.g)
      ∧ p.commitment.E = ped.Commit alpha gamma
      ∧ p.commitment.S = ped.Commit x m
      ∧ 0 ≤ p.commitment.Challenge env
      ∧ p.response.Z1 = alpha + p.commitment.Challenge env * x
      ∧ p.response.Z2 = gamma + p.commitment.Challenge env * m
      ∧ p.response.W = r * rho ^ (p.commitment.Challenge env).toNat % pk.N := by
  refine ⟨_, mulg_NewProof_eq env pk ped C D X x rho alpha r gamma m hN, rfl, rfl, ?_, rfl, rfl,
    MakeChallengeFq_nonneg _ _ _, by simp only [add_comm], by simp only [add_comm], ?_⟩
  · intro hq
    simp only [ScalarBaseMult, NewScalarBigInt, emod_smul _ _ hq]
  · have he : 0 ≤ Commitment.Challenge env
        { A := (paillier.Ciphertext.Mul pk C alpha).Randomize pk r
          Bx := ScalarBaseMult env (NewScalarBigInt env alpha)
          E := ped.Commit alpha gamma
          S := ped.Commit x m } := MakeChallengeFq_nonneg _ _ _
    simp only [paillier.PublicKey.N] at hN ⊢
    rw [big.Exp_of_nonneg _ _ _ _ hN he, Int.mul_emod, Int.emod_emod, ← Int.mul_emod, mul_comm]

/-- C12, at a concrete input: `N0 = 15`, `C = 4`, `x = 1`, `rho = 2` and the
samples `alpha = 3`, `r = 7`, `gamma = 2`, `m = 1`; the challenge is `6`,
`Z1 = 3 + 6 * 1`, `Z2 = 2 + 6 * 1` and `W = 7 * 2 ^ 6 mod 15 = 13`. -/
theorem mulg_response_formulas_witness :
    (∃ p, NewProof toyEnv toyKey toyPedersen toyC toyD 1 1 2 3 7 2 1 = some p
      ∧ p.commitment.A = (paillier.Ciphertext.Mul toyKey toyC 3).Randomize toyKey 7
      ∧ p.commitment.Bx = ScalarBaseMult toyEnv (NewScalarBigInt toyEnv 3)
      ∧ (toyEnv.q • toyEnv.g = 0 → p.commitment.Bx = (3 : Int) • toyEnv.g)
      ∧ p.commitment.E = toyPedersen.Commit 3 2
      ∧ p.commitment.S = toyPedersen.Commit 1 1
      ∧ 0 ≤ p.commitment.Challenge toyEnv
      ∧ p.response.Z1 = 3 + p.commitment.Challenge toyEnv * 1
      ∧ p.response.Z2 = 2 + p.commitment.Challenge toyEnv * 1
      ∧ p.response.W = 7 * 2 ^ (p.commitment.Challenge toyEnv).toNat % toyKey.N)
    ∧ NewProof toyEnv toyKey toyPedersen toyC toyD 1 1 2 3 7 2 1 = some toyProof
    ∧ toyProof.commitment.Challenge toyEnv = 6
    ∧ toyProof.response = { Z1 := 9, Z2 := 8, W := 13 } :=
  ⟨mulg_response_formulas toyEnv toyKey toyPedersen toyC toyD 1 1 2 3 7 2 1 (by decide),
    by decide, by decide, by decide⟩

/-- C17. For a Paillier modulus `N0 > 0`, any residue `C`, integers
`alpha, x, e ≥ 0` and any `r`, `rho`, with `A = C^alpha * r^N0` and
`D = C^x * rho^N0` modulo `N0²`, `Z1 = alpha + e * x` and
`W = (r * rho^e) mod N0` as `NewProof` computes it: the two sides of check (b)
of `Verify` agree, `C^Z1 * W^N0 = A * D^e (mod N0²)`, although `W` is reduced
modulo `N0` only. -/
theorem mulg_ciphertext_equation (pk : paillier.PublicKey) (C : paillier.Ciphertext)
    (alpha x e r rho : Int) (hN : 0 < pk.n) (ha : 0 ≤ alpha) (hx : 0 ≤ x) (he : 0 ≤ e) :
    ∃ W, big.Mod (big.Exp 0 rho e pk.N * r) pk.N = some W
      ∧ W = r * rho ^ e.toNat % pk.n
      ∧ ((paillier.Ciphertext.Mul pk C alpha).Randomize pk r).c
          = C.c ^ alpha.toNat * r ^ pk.n.toNat % (pk.n * pk.n)
      ∧ ((paillier.Ciphertext.Mul pk C x).Randomize pk rho).c
          = C.c ^ x.toNat * rho ^ pk.n.toNat % (pk.n * pk.n)
      ∧ ((paillier.Ciphertext.Mul pk C (e * x + alpha)).Randomize pk W).Equal
          (paillier.Ciphertext.Add pk
            (paillier.Ciphertext.Mul pk ((paillier.Ciphertext.Mul pk C x).Randomize pk rho) e)
            ((paillier.Ciphertext.Mul pk C alpha).Randomize pk r)) = true := by
  have hN0 : pk.n ≠ 0 := ne_of_gt hN
  have hM0 : pk.n * pk.n ≠ 0 := mul_ne_zero hN0 hN0
  refine ⟨_, big.Mod_of_ne_zero _ _ hN0, ?_, ?_, ?_, ?_⟩
  · simp only [paillier.PublicKey.N]
    rw [big.Exp_of_nonneg _ _ _ _ hN0 he, Int.mul_emod, Int.emod_emod, ← Int.mul_emod, mul_comm]
  · simp only [paillier.Ciphertext.Mul, paillier.Ciphertext.Randomize,
      big.Exp_of_nonneg _ _ _ _ hM0 ha, big.Exp_of_nonneg _ _ _ _ hM0 (le_of_lt hN)]
    rw [← Int.mul_emod]
  · simp only [paillier.Ciphertext.Mul, paillier.Ciphertext.Randomize,
      big.Exp_of_nonneg _ _ _ _ hM0 hx, big.Exp_of_nonneg _ _ _ _ hM0 (le_of_lt hN)]
    rw [← Int.mul_emod]
  · simp only [paillier.Ciphertext.Equal, decide_eq_true_eq, paillier.PublicKey.N]
    exact paillier.honest_equation_nonneg pk C x rho alpha r e hN ha hx he

/-- C17, at a concrete input: `N0 = 15`, `C = 10` (not a unit modulo `15`),
`alpha = 3`, `x = 2`, `e = 5`, `r = 7`, `rho = 2`: `W = 7 * 2 ^ 5 mod 15 = 14`,
`Z1 = 13`, and both sides are `125` modulo `225`. -/
theorem mulg_ciphertext_equation_witness :
    (∃ W, big.Mod (big.Exp 0 2 5 toyKey.N * 7) toyKey.N = some W
      ∧ W = 7 * 2 ^ (5 : Int).toNat % toyKey.n
      ∧ ((paillier.Ciphertext.Mul toyKey { c := 10 } 3).Randomize toyKey 7).c
          = 10 ^ (3 : Int).toNat * 7 ^ toyKey.n.toNat % (toyKey.n * toyKey.n)
      ∧ ((paillier.Ciphertext.Mul toyKey { c := 10 } 2).Randomize toyKey 2).c
          = 10 ^ (2 : Int).toNat * 2 ^ toyKey.n.toNat % (toyKey.n * toyKey.n)
      ∧ ((paillier.Ciphertext.Mul toyKey { c := 10 } (5 * 2 + 3)).Randomize toyKey W).Equal
          (paillier.Ciphertext.Add toyKey
            (paillier.Ciphertext.Mul toyKey
              ((paillier.Ciphertext.Mul toyKey { c := 10 } 2).Randomize toyKey 2) 5)
            ((paillier.Ciphertext.Mul toyKey { c := 10 } 3).Randomize toyKey 7)) = true)
    ∧ big.Mod (big.Exp 0 2 5 toyKey.N * 7) toyKey.N = some 14
    ∧ ((paillier.Ciphertext.Mul toyKey { c := 10 } 13).Randomize toyKey 14).c = 125 :=
  ⟨mulg_ciphertext_equation toyKey { c := 10 } 3 2 5 7 2 (by decide) (by decide) (by decide)
      (by decide),
    by decide, by decide⟩

/-- C18. When the group order annihilates the base point, for all integers
`alpha`, `x`, `e`, with `X = g^x`, `Bx = g^alpha` and `Z1 = alpha + e * x`
computed over the integers: after `Z1` and `e` are mapped to scalars modulo the
group order, `g^Z1 = e * X + Bx`, so check (c) of `Verify` passes. -/
theorem mulg_curve_equation {G : Type} [AddCommGroup G] [DecidableEq G] (env : Env G)
    (alpha x e : Int) (hq : env.q • env.g = 0) :
    ScalarBaseMult env (NewScalarBigInt env (e * x + alpha)) = (alpha + e * x) • env.g
    ∧ PointEqual (ScalarBaseMult env (NewScalarBigInt env (e * x + alpha)))
        (ScalarMult (NewScalarBigInt env e) (ScalarBaseMult env (NewScalarBigInt env x))
          + ScalarBaseMult env (NewScalarBigInt env alpha)) = 1 := by
  constructor
  · simp only [ScalarBaseMult, NewScalarBigInt, emod_smul _ _ hq, add_comm]
  · rw [honest_curve env hq x alpha e]
    simp [PointEqual]

/-- C18, at a concrete input: in `ℤ/7ℤ` with base point `1`, `alpha = 30`,
`x = -4`, `e = 5`: `Z1 = 10`, and both sides are the point `3`. -/
theorem mulg_curve_equation_witness :
    (ScalarBaseMult toyEnv (NewScalarBigInt toyEnv (5 * -4 + 30)) = ((30 : Int) + 5 * -4) • toyEnv.g
    ∧ PointEqual (ScalarBaseMult toyEnv (NewScalarBigInt toyEnv (5 * -4 + 30)))
        (ScalarMult (NewScalarBigInt toyEnv 5)
            (ScalarBaseMult toyEnv (NewScalarBigInt toyEnv (-4)))
          + ScalarBaseMult toyEnv (NewScalarBigInt toyEnv 30)) = 1)
    ∧ ScalarBaseMult toyEnv (NewScalarBigInt toyEnv (5 * -4 + 30)) = 3 :=
  ⟨mulg_curve_equation toyEnv 30 (-4) 5 (by decide), by decide⟩

end zkmulg
